import Mathlib

/-!
Verification development for the lagomorph core (metric.py, adjrep.py).

The repository applies a spectral elliptic operator (FluidMetric) to vector
fields on a regular 2-D grid, and implements the adjoint/coadjoint calculus
(AdjRep) on such fields.  Machine floats are embedded as exact real/complex
numbers; grid fields of shape (N, C, W, H) with C = 2 become functions
`Fin B → Fin 2 → Fin (N₁+1) → Fin (N₂+1)`.  Spatial extents are written as
`N+1` so that every grid axis is nonempty.

External collaborators of the repository (the FFT engine, the CUDA operator
kernels, the finite-difference suite) are not under src/; where a claim
depends on them they are modelled from the spec, as marked on each definition.
-/

namespace Lagomorph

/-- A grid field of shape (B, 2, N₁+1, N₂+1): batch, channel, two spatial
axes.  Velocity and momentum fields of metric.py share this representation;
values are exact complex numbers standing for the machine floats. -/
abbrev CF (B N₁ N₂ : ℕ) : Type := Fin B → Fin 2 → Fin (N₁ + 1) → Fin (N₂ + 1) → ℂ

noncomputable section

/-- Lookup-table entry `1 - cos(2πk/N)` precomputed per axis
(metric.py, initialize_luts, lines 63-66). -/
def lutcos (N k : ℕ) : ℝ := 1 - Real.cos (2 * Real.pi * k / N)

/-- Lookup-table entry `sin(2πk/N)` precomputed per axis
(metric.py, initialize_luts, lines 67-69). -/
def lutsin (N k : ℕ) : ℝ := Real.sin (2 * Real.pi * k / N)

/-- The Fourier kernel `e^{2πit/N}`. -/
def fker (N : ℕ) (t : ℤ) : ℂ := Complex.exp (2 * Real.pi * Complex.I * t / N)

/-- The discrete transform along the first spatial axis with sign `s` in the
exponent (`s = -1`: analysis direction, `s = 1`: synthesis direction). -/
def dftAx1 (s : ℤ) {B N₁ N₂ : ℕ} (x : CF B N₁ N₂) : CF B N₁ N₂ :=
  fun b c k₁ n₂ => ∑ m₁ : Fin (N₁ + 1),
    x b c m₁ n₂ * fker (N₁ + 1) (s * (k₁.val * m₁.val))

/-- The discrete transform along the second spatial axis. -/
def dftAx2 (s : ℤ) {B N₁ N₂ : ℕ} (x : CF B N₁ N₂) : CF B N₁ N₂ :=
  fun b c n₁ k₂ => ∑ m₂ : Fin (N₂ + 1),
    x b c n₁ m₂ * fker (N₂ + 1) (s * (k₂.val * m₂.val))

/-- Unscaled separable 2-D DFT (the real-to-complex CUFFT transform of
metric.py; the code keeps only the Hermitian half-spectrum along the last
axis, which carries the same information as this full spectrum). -/
def dftRaw {B N₁ N₂ : ℕ} (x : CF B N₁ N₂) : CF B N₁ N₂ :=
  dftAx2 (-1) (dftAx1 (-1) x)

/-- Unscaled separable 2-D inverse DFT (the complex-to-real CUFFT transform,
`scale=False` leg). -/
def idftRaw {B N₁ N₂ : ℕ} (X : CF B N₁ N₂) : CF B N₁ N₂ :=
  dftAx2 1 (dftAx1 1 X)

/-- Total number of grid points of the two spatial axes (CUFFT's scale
factor). -/
def Ntot (N₁ N₂ : ℕ) : ℕ := (N₁ + 1) * (N₂ + 1)

/-- The discretized Laplacian eigenvalue at a frequency: the sum of the
per-axis `1 - cos` lookup entries.  Modelled from the spec: the CUDA kernels
of module `metric_cuda` (not under src/) consume the lookup tables of
`initialize_luts`; §4.1 of the spec defines `L(ξ)` as the sum of the per-axis
`1-cos` terms. -/
def Lop (N₁ N₂ : ℕ) (k₁ : Fin (N₁ + 1)) (k₂ : Fin (N₂ + 1)) : ℝ :=
  lutcos (N₁ + 1) k₁.val + lutcos (N₂ + 1) k₂.val

/-- The per-axis `sin` lookup entries assembled into the coupling vector.
Modelled from the spec (§4.1): the `β` term of the operator matrix is the
outer product built from the per-axis `sin` lookup entries. -/
def svec (N₁ N₂ : ℕ) (k₁ : Fin (N₁ + 1)) (k₂ : Fin (N₂ + 1)) : Fin 2 → ℝ :=
  fun i => if i = 0 then lutsin (N₁ + 1) k₁.val else lutsin (N₂ + 1) k₂.val

/-- Modelled from the spec (§4.1): the `dim × dim` symmetric per-frequency
operator matrix `A(ξ) = α·L(ξ)·I + β·(s sᵀ) + γ·I` realized by the
`metric_cuda.forward_operator_2d` kernel (not under src/). -/
def Amat (al be ga : ℝ) (N₁ N₂ : ℕ) (k₁ : Fin (N₁ + 1)) (k₂ : Fin (N₂ + 1)) :
    Fin 2 → Fin 2 → ℝ :=
  fun i j =>
    al * Lop N₁ N₂ k₁ k₂ * (if i = j then 1 else 0) +
      be * svec N₁ N₂ k₁ k₂ i * svec N₁ N₂ k₁ k₂ j +
      ga * (if i = j then 1 else 0)

/-- Determinant of the per-frequency 2×2 operator matrix. -/
def detA (al be ga : ℝ) (N₁ N₂ : ℕ) (k₁ : Fin (N₁ + 1)) (k₂ : Fin (N₂ + 1)) : ℝ :=
  Amat al be ga N₁ N₂ k₁ k₂ 0 0 * Amat al be ga N₁ N₂ k₁ k₂ 1 1 -
    Amat al be ga N₁ N₂ k₁ k₂ 0 1 * Amat al be ga N₁ N₂ k₁ k₂ 1 0

/-- Modelled from the spec (§4.1): the closed-form 2×2 inverse of the
per-frequency operator matrix, as computed by the
`metric_cuda.inverse_operator_2d` kernel (not under src/). -/
def AmatInv (al be ga : ℝ) (N₁ N₂ : ℕ) (k₁ : Fin (N₁ + 1)) (k₂ : Fin (N₂ + 1)) :
    Fin 2 → Fin 2 → ℝ :=
  fun i j =>
    (if i = j then (if i = 0 then Amat al be ga N₁ N₂ k₁ k₂ 1 1
        else Amat al be ga N₁ N₂ k₁ k₂ 0 0)
      else -(Amat al be ga N₁ N₂ k₁ k₂ i j)) / detA al be ga N₁ N₂ k₁ k₂

/-- Forward frequency-domain operator application (metric.py lines 74-86,
`inverse=False` branch): at each frequency, multiply the channel vector of
the spectrum by the matrix `A(ξ)`. -/
def forward_operator_2d (al be ga : ℝ) {B N₁ N₂ : ℕ} (F : CF B N₁ N₂) :
    CF B N₁ N₂ :=
  fun b i k₁ k₂ => ∑ j : Fin 2,
    ((Amat al be ga N₁ N₂ k₁ k₂ i j : ℝ) : ℂ) * F b j k₁ k₂

/-- Inverse frequency-domain operator application (metric.py lines 74-86,
`inverse=True` branch): multiply by the closed-form inverse of `A(ξ)`. -/
def inverse_operator_2d (al be ga : ℝ) {B N₁ N₂ : ℕ} (F : CF B N₁ N₂) :
    CF B N₁ N₂ :=
  fun b i k₁ k₂ => ∑ j : Fin 2,
    ((AmatInv al be ga N₁ N₂ k₁ k₂ i j : ℝ) : ℂ) * F b j k₁ k₂

/-- FluidMetric.sharp (metric.py lines 89-103): scaled forward FFT of the
momentum into the frequency buffer, inverse operator application, unscaled
inverse FFT into the output. -/
def sharp (al be ga : ℝ) {B N₁ N₂ : ℕ} (m : CF B N₁ N₂) : CF B N₁ N₂ :=
  idftRaw (inverse_operator_2d al be ga
    (fun b c k₁ k₂ => dftRaw m b c k₁ k₂ / ((Ntot N₁ N₂ : ℕ) : ℂ)))

/-- FluidMetric.flat (metric.py lines 104-117): unscaled forward FFT of the
velocity, forward operator application, scaled inverse FFT into the
output. -/
def flat (al be ga : ℝ) {B N₁ N₂ : ℕ} (v : CF B N₁ N₂) : CF B N₁ N₂ :=
  fun b c n₁ n₂ =>
    idftRaw (forward_operator_2d al be ga (dftRaw v)) b c n₁ n₂ /
      ((Ntot N₁ N₂ : ℕ) : ℂ)

/-- The momentum used to refute claim C1 as stated: on a 4×1 grid, channel 0
holds the cosine pattern (1, 0, -1, 0) along the first axis. -/
def cexM : CF 1 3 0 := fun _ c n₁ _ =>
  if c = 0 then (if n₁ = 0 then 1 else if n₁ = 2 then -1 else 0) else 0

/-- The ill-conditioning test evaluated by FluidMetric.__init__
(metric.py line 34): `gamma <= 4*alpha + 2*beta`. -/
def illConditioned (alpha beta gamma : ℝ) : Prop :=
  gamma ≤ 4 * alpha + 2 * beta

/-- Whether FluidMetric.__init__ prints its ill-conditioning warning
(metric.py lines 34-36).  The source guards the print with
`gamma <= 4*alpha + 2*beta and False`: the conjunction with the literal
`False` makes the warning branch unreachable. -/
def warningEmitted (alpha beta gamma : ℝ) : Prop :=
  illConditioned alpha beta gamma ∧ False

/-- The errors FluidMetric.__init__ can raise: the IndexError from
`shape[-1]` on an empty shape (metric.py line 29), the invalid-dimension
Exception (line 39), the unsupported-precision Exception (line 48). -/
inductive InitError where
  | indexError : InitError
  | invalidDim (d : ℤ) : InitError
  | unsupportedPrecision (p : String) : InitError
deriving DecidableEq

/-- The data a successfully constructed FluidMetric holds (metric.py
lines 27-46): shape, folded half-spectrum shape, coefficients, spatial
dimension, precision tag and float width. -/
structure MetricData where
  shape : List ℕ
  complexshape : List ℕ
  alpha : ℝ
  beta : ℝ
  gamma : ℝ
  dim : ℤ
  precision : String
  dtypeBits : ℕ

/-- FluidMetric.__init__ (metric.py lines 16-48), its failure structure.
The body first builds `complexshape`, reading `shape[-1]` (IndexError when
the shape is empty), evaluates the disabled warning condition, then checks
`dim = len(shape) - 2` against 2 and 3, then dispatches on the precision
tag; any raise discards the instance. -/
def FluidMetric_init (shape : List ℕ) (alpha beta gamma : ℝ)
    (precision : String) : Except InitError MetricData :=
  match shape.getLast? with
  | none => .error .indexError
  | some last =>
    let complexshape := shape.dropLast ++ [last / 2 + 1]
    let dim : ℤ := (shape.length : ℤ) - 2
    if dim ≠ 2 ∧ dim ≠ 3 then .error (.invalidDim dim)
    else if precision = "single" then
      .ok ⟨shape, complexshape, alpha, beta, gamma, dim, precision, 32⟩
    else if precision = "double" then
      .ok ⟨shape, complexshape, alpha, beta, gamma, dim, precision, 64⟩
    else .error (.unsupportedPrecision precision)

/-- The error raised by the repository's explicitly unimplemented branches:
`NotImplementedError("not implemented yet")`. -/
inductive LagError where
  | notImplemented (msg : String) : LagError
deriving DecidableEq

/-- FluidMetric.operator_fourier (metric.py lines 70-88): dispatch on the
instance's spatial dimension.  `dim = 2` applies the 2-D kernel, forward or
inverse; `dim = 3` raises `NotImplementedError("not implemented yet")`;
any other value falls through without touching the spectrum (unreachable
from a constructed instance, whose dim is 2 or 3). -/
def operator_fourier (dim : ℤ) (al be ga : ℝ) {B N₁ N₂ : ℕ}
    (F : CF B N₁ N₂) (inverse : Bool) : Except LagError (CF B N₁ N₂) :=
  if dim = 2 then
    .ok (if inverse then inverse_operator_2d al be ga F
      else forward_operator_2d al be ga F)
  else if dim = 3 then .error (.notImplemented "not implemented yet")
  else .ok F

/-- The calls the metric operations issue against device arrays, in order:
allocation of a fresh output (`gpuarray.empty_like`), the `astype` cast
copy of an array, the forward FFT, the frequency-domain operator kernel,
the inverse FFT. -/
inductive MEvent where
  | emptyLike (id : ℕ) : MEvent
  | astypeCopy (src dst : ℕ) : MEvent
  | fftCall : MEvent
  | operatorCall : MEvent
  | ifftCall : MEvent
deriving DecidableEq

/-- Whether an event is a copy of an existing array. -/
def MEvent.isCopy : MEvent → Bool
  | .astypeCopy _ _ => true
  | _ => false

/-- The device-array state a FluidMetric instance acts on: the store of
allocated arrays addressed by numeric handles (contents only — every array
this model allocates is C-contiguous), the instance's scratch frequency
buffer `Fv` (metric.py line 50), and the next fresh handle. -/
structure GState (B N₁ N₂ : ℕ) where
  arrays : ℕ → CF B N₁ N₂
  Fv : CF B N₁ N₂
  nextId : ℕ

/-- FluidMetric.sharp (metric.py lines 89-103) as a state transformer:
assert the momentum's contiguity (the scratch buffer, allocated C-order at
construction, always passes its own assert), allocate the output with
`empty_like` unless one is supplied, run `fft(m, Fv, scale=True)`, the
inverse operator on `Fv` in place, and `ifft(Fv, out)`.  Returns the final
state, the handle returned, and the trace of calls made. -/
def sharpOp (al be ga : ℝ) {B N₁ N₂ : ℕ} (σ : GState B N₁ N₂) (m : ℕ)
    (mContig : Bool) (out : Option ℕ) :
    Except String (GState B N₁ N₂ × ℕ × List MEvent) :=
  if ¬ mContig then .error "Momentum array must be contiguous"
  else
    let alloc : ℕ × GState B N₁ N₂ × List MEvent :=
      match out with
      | some o => (o, σ, [])
      | none => (σ.nextId, GState.mk σ.arrays σ.Fv (σ.nextId + 1),
          [MEvent.emptyLike σ.nextId])
    let oid := alloc.1
    let σ₁ := alloc.2.1
    let F := inverse_operator_2d al be ga
      (fun b c k₁ k₂ => dftRaw (σ₁.arrays m) b c k₁ k₂ /
        ((Ntot N₁ N₂ : ℕ) : ℂ))
    .ok (GState.mk (Function.update σ₁.arrays oid (idftRaw F)) F σ₁.nextId,
      oid,
      alloc.2.2 ++ [MEvent.fftCall, MEvent.operatorCall, MEvent.ifftCall])

/-- FluidMetric.flat (metric.py lines 104-117) as a state transformer.  The
fft call at line 114 reads `m.astype(self.dtype)`, which allocates a cast
copy of the input (pycuda's astype returns a new array even when the dtype
already matches); in exact arithmetic the cast leaves the contents
unchanged.  Then the forward operator runs on `Fv` and
`ifft(Fv, out, scale=True)` writes the output. -/
def flatOp (al be ga : ℝ) {B N₁ N₂ : ℕ} (σ : GState B N₁ N₂) (m : ℕ)
    (mContig : Bool) (out : Option ℕ) :
    Except String (GState B N₁ N₂ × ℕ × List MEvent) :=
  if ¬ mContig then .error "Momentum array must be contiguous"
  else
    let alloc : ℕ × GState B N₁ N₂ × List MEvent :=
      match out with
      | some o => (o, σ, [])
      | none => (σ.nextId, GState.mk σ.arrays σ.Fv (σ.nextId + 1),
          [MEvent.emptyLike σ.nextId])
    let oid := alloc.1
    let σ₁ := alloc.2.1
    let cid := σ₁.nextId
    let σ₂ : GState B N₁ N₂ :=
      GState.mk (Function.update σ₁.arrays cid (σ₁.arrays m)) σ₁.Fv
        (σ₁.nextId + 1)
    let F := forward_operator_2d al be ga (dftRaw (σ₂.arrays cid))
    .ok (GState.mk
        (Function.update σ₂.arrays oid
          (fun b c n₁ n₂ => idftRaw F b c n₁ n₂ / ((Ntot N₁ N₂ : ℕ) : ℂ)))
        F σ₂.nextId,
      oid,
      alloc.2.2 ++ [MEvent.astypeCopy m cid, MEvent.fftCall,
        MEvent.operatorCall, MEvent.ifftCall])

/-- A concrete two-array device state on a 1×1 grid for the C8 and C9
counterexamples. -/
def GStateEx : GState 1 0 0 :=
  GState.mk (fun _ _ _ _ _ => 1) (fun _ _ _ _ => 0) 1

/-- A concrete device state with two allocated arrays, for the C9
witness. -/
def GStateEx2 : GState 1 0 0 :=
  GState.mk (fun _ _ _ _ _ => 1) (fun _ _ _ _ => 0) 2

end

/-- A grid field over exact rationals, used for the adjoint-representation
calculus of adjrep.py: batch, 2 channels, two spatial axes. -/
abbrev QF (B N₁ N₂ : ℕ) : Type := Fin B → Fin 2 → Fin (N₁ + 1) → Fin (N₂ + 1) → ℚ

/-- Modelled from the spec: the Differential Operator Suite (module
lagomorph.diff, not under src/) supplies the derivative primitives over
grid fields (§2, §6 of the spec).  Derivatives are realized as periodic
central differences on the grid, the standard finite-difference
discretization of such fields; `pd ax f` is the partial derivative of the
scalar grid function `f` along spatial axis `ax`. -/
def pd {N₁ N₂ : ℕ} (ax : Fin 2) (f : Fin (N₁ + 1) → Fin (N₂ + 1) → ℚ)
    (x : Fin (N₁ + 1)) (y : Fin (N₂ + 1)) : ℚ :=
  if ax = 0 then (f (x + 1) y - f (x - 1) y) / 2
  else (f x (y + 1) - f x (y - 1)) / 2

/-- Modelled from the spec (§6): `jacobian_times_vectorfield(a, b)` computes
`(Da)·b`, that is `(Da·b)_i = Σ_j (∂_j a_i) b_j`, pointwise on the grid. -/
def jtv {B N₁ N₂ : ℕ} (a b : QF B N₁ N₂) : QF B N₁ N₂ :=
  fun bt i x y => ∑ j : Fin 2, pd j (a bt i) x y * b bt j x y

/-- Modelled from the spec (§6): `jacobian_times_vectorfield(a, b,
transpose=True)` computes `(Da)ᵀ·b`, that is `((Da)ᵀ·b)_i = Σ_j (∂_i a_j) b_j`,
with exact transpose semantics. -/
def jtvT {B N₁ N₂ : ℕ} (a b : QF B N₁ N₂) : QF B N₁ N₂ :=
  fun bt i x y => ∑ j : Fin 2, pd i (a bt j) x y * b bt j x y

/-- Modelled from the spec (§6): `divergence(v) = Σ_j ∂_j v_j`. -/
def divergence {B N₁ N₂ : ℕ} (v : QF B N₁ N₂) :
    Fin B → Fin (N₁ + 1) → Fin (N₂ + 1) → ℚ :=
  fun bt x y => ∑ j : Fin 2, pd j (v bt j) x y

/-- The Metric abstraction of spec §3: any object exposing
`sharp : momentum → velocity` and `flat : velocity → momentum`.  AdjRep's
dagger and sym operators are polymorphic over this capability. -/
structure MetricOps (B N₁ N₂ : ℕ) where
  sharp : QF B N₁ N₂ → QF B N₁ N₂
  flat : QF B N₁ N₂ → QF B N₁ N₂

/-- AdjRep (adjrep.py lines 9-15): holds the dimension passed at
construction and nothing else. -/
structure AdjRep where
  dim : ℤ

namespace AdjRep

/-- AdjRep.__init__ (adjrep.py lines 10-15): stores dim, with no
validation. -/
def init (dim : ℤ) : AdjRep := ⟨dim⟩

/-- AdjRep.ad (adjrep.py lines 16-23): `ad(v,w) = Dv·w − Dw·v`. -/
def ad {B N₁ N₂ : ℕ} (self : AdjRep) (v w : QF B N₁ N₂) : QF B N₁ N₂ :=
  fun bt i x y => jtv v w bt i x y - jtv w v bt i x y

/-- AdjRep.Ad (adjrep.py lines 24-34): declared but intentionally
unimplemented; raises `NotImplementedError("not implemented yet")` for
every input. -/
def Ad {B N₁ N₂ : ℕ} (self : AdjRep) (phi v : QF B N₁ N₂) :
    Except LagError (QF B N₁ N₂) :=
  .error (.notImplemented "not implemented yet")

/-- AdjRep.ad_star (adjrep.py lines 35-47):
`ad_star(v,m) = (Dv)ᵀ·m + Dm·v + m·(div v)`. -/
def ad_star {B N₁ N₂ : ℕ} (self : AdjRep) (v m : QF B N₁ N₂) : QF B N₁ N₂ :=
  fun bt i x y => jtvT v m bt i x y + jtv m v bt i x y +
    m bt i x y * divergence v bt x y

/-- AdjRep.Ad_star (adjrep.py lines 48-59): interpolate `m` at the points
defined by `phi`, then apply `phi`'s Jacobian.  The interpolation routine
`interp_def` (module lagomorph.deform, not under src/) is an external
collaborator of the spec and is passed as a parameter. -/
def Ad_star {B N₁ N₂ : ℕ}
    (interp : QF B N₁ N₂ → QF B N₁ N₂ → QF B N₁ N₂)
    (self : AdjRep) (phi m : QF B N₁ N₂) : QF B N₁ N₂ :=
  jtv phi (interp m phi)

/-- AdjRep.ad_dagger (adjrep.py lines 64-65):
`metric.sharp(ad_star(x, metric.flat(y)))`. -/
def ad_dagger {B N₁ N₂ : ℕ} (self : AdjRep) (x y : QF B N₁ N₂)
    (metric : MetricOps B N₁ N₂) : QF B N₁ N₂ :=
  metric.sharp (self.ad_star x (metric.flat y))

/-- AdjRep.Ad_dagger (adjrep.py lines 66-67):
`metric.sharp(Ad_star(phi, metric.flat(y)))`. -/
def Ad_dagger {B N₁ N₂ : ℕ}
    (interp : QF B N₁ N₂ → QF B N₁ N₂ → QF B N₁ N₂)
    (self : AdjRep) (phi y : QF B N₁ N₂)
    (metric : MetricOps B N₁ N₂) : QF B N₁ N₂ :=
  metric.sharp (Ad_star interp self phi (metric.flat y))

/-- AdjRep.sym (adjrep.py lines 71-72):
`-(ad_dagger(x,y,metric) + ad_dagger(y,x,metric))`. -/
def sym {B N₁ N₂ : ℕ} (self : AdjRep) (x y : QF B N₁ N₂)
    (metric : MetricOps B N₁ N₂) : QF B N₁ N₂ :=
  fun bt i a b =>
    -(self.ad_dagger x y metric bt i a b + self.ad_dagger y x metric bt i a b)

/-- AdjRep.sym_dagger (adjrep.py lines 73-74):
`ad_dagger(y,x,metric) - ad(x,y)`. -/
def sym_dagger {B N₁ N₂ : ℕ} (self : AdjRep) (x y : QF B N₁ N₂)
    (metric : MetricOps B N₁ N₂) : QF B N₁ N₂ :=
  fun bt i a b =>
    self.ad_dagger y x metric bt i a b - self.ad x y bt i a b

end AdjRep

/-- The discrete inner product of spec §8: the sum over the batch and all
grid points of the pointwise dot products of the two fields. -/
def ip {B N₁ N₂ : ℕ} (u w : QF B N₁ N₂) : ℚ :=
  ∑ bt : Fin B, ∑ i : Fin 2, ∑ x : Fin (N₁ + 1), ∑ y : Fin (N₂ + 1),
    u bt i x y * w bt i x y

/-- The Leibniz defect of the discrete derivative against the pairing
identity: over the batch, grid points and component pairs, the amount by
which the central difference fails the product rule on the triple product
`m_i·v_j·w_i`.  For exact (continuum) derivatives every summand vanishes;
on the grid it is the exact discrepancy of the pairing identity. -/
def pairingDefect {B N₁ N₂ : ℕ} (v m w : QF B N₁ N₂) : ℚ :=
  ∑ bt : Fin B, ∑ x : Fin (N₁ + 1), ∑ y : Fin (N₂ + 1),
    ∑ i : Fin 2, ∑ j : Fin 2,
      (pd j (m bt i) x y * v bt j x y * w bt i x y +
        m bt i x y * w bt i x y * pd j (v bt j) x y +
        m bt i x y * v bt j x y * pd j (w bt i) x y -
        pd j (fun a b => m bt i a b * v bt j a b * w bt i a b) x y)

/-- Concrete velocity field for the C2 counterexample: a unit impulse in
channel 0 at grid point (0,0) of a 3×1 grid. -/
def C2v : QF 1 2 0 := fun _ i x _ => if i = 0 ∧ x = 0 then 1 else 0

/-- Concrete momentum field for the C2 counterexample: a unit impulse in
channel 0 at grid point (1,0). -/
def C2m : QF 1 2 0 := fun _ i x _ => if i = 0 ∧ x = 1 then 1 else 0

/-- Concrete test velocity field for the C2 counterexample, equal to
`C2v`. -/
def C2w : QF 1 2 0 := fun _ i x _ => if i = 0 ∧ x = 0 then 1 else 0

lemma fker_add (N : ℕ) (a b : ℤ) : fker N (a + b) = fker N a * fker N b := by
  rw [fker, fker, fker, ← Complex.exp_add]
  congr 1
  push_cast
  ring

lemma fker_int_mul_self (N : ℕ) (j : ℤ) (hN : (N : ℂ) ≠ 0) :
    fker N (j * N) = 1 := by
  rw [fker]
  have h : (2 * Real.pi * Complex.I * (((j * N : ℤ) : ℂ)) / N) =
      (j : ℂ) * (2 * (Real.pi : ℂ) * Complex.I) := by
    push_cast
    field_simp
    ring
  rw [h]
  exact Complex.exp_int_mul_two_pi_mul_I j

lemma fker_nat_mul (N : ℕ) (k : ℕ) (t : ℤ) :
    fker N (k * t) = fker N t ^ k := by
  rw [fker, fker, ← Complex.exp_nat_mul]
  congr 1
  push_cast
  ring

/-- Root-of-unity orthogonality: summing the kernel over one full axis of
frequencies yields `N+1` on resonant integers and `0` otherwise. -/
lemma sum_fker_val_mul (N : ℕ) (t : ℤ) :
    ∑ k : Fin (N + 1), fker (N + 1) (k.val * t) =
      if ((N + 1 : ℕ) : ℤ) ∣ t then ((N + 1 : ℕ) : ℂ) else 0 := by
  have hNC : ((N + 1 : ℕ) : ℂ) ≠ 0 := by exact_mod_cast Nat.succ_ne_zero N
  by_cases h : ((N + 1 : ℕ) : ℤ) ∣ t
  · rw [if_pos h]
    obtain ⟨j, hj⟩ := h
    have hterm : ∀ k : Fin (N + 1), fker (N + 1) (k.val * t) = 1 := by
      intro k
      have he : (k.val : ℤ) * t = (k.val * j) * ((N + 1 : ℕ) : ℤ) := by
        rw [hj]; ring
      rw [he]
      exact_mod_cast fker_int_mul_self (N + 1) (k.val * j) (by exact_mod_cast hNC)
    rw [Finset.sum_congr rfl (fun k _ => hterm k)]
    simp
  · set z := fker (N + 1) t with hz
    have hzpow : ∀ k : Fin (N + 1), fker (N + 1) (k.val * t) = z ^ k.val := by
      intro k
      rw [hz, ← fker_nat_mul]
    have hzN : z ^ (N + 1) = 1 := by
      rw [hz, ← fker_nat_mul]
      have he : ((N + 1 : ℕ) : ℤ) * t = t * ((N + 1 : ℕ) : ℤ) := by ring
      rw [he]
      exact fker_int_mul_self (N + 1) t (by exact_mod_cast hNC)
    have hz1 : z ≠ 1 := by
      intro hone
      rw [hz, fker, Complex.exp_eq_one_iff] at hone
      obtain ⟨n, hn⟩ := hone
      have h2pi : (2 * (Real.pi : ℂ) * Complex.I) ≠ 0 := by
        refine mul_ne_zero (mul_ne_zero two_ne_zero ?_) Complex.I_ne_zero
        exact_mod_cast Real.pi_ne_zero
    -- from 2πI·t/(N+1) = n·2πI conclude t = n·(N+1)
      have hct : (t : ℂ) = (n : ℂ) * ((N + 1 : ℕ) : ℂ) := by
        have hmul := congrArg (fun w => w * ((N + 1 : ℕ) : ℂ)) hn
        simp only [div_mul_cancel₀ _ hNC] at hmul
        have hrw : (n : ℂ) * (2 * (Real.pi : ℂ) * Complex.I) * ((N + 1 : ℕ) : ℂ) =
            (2 * (Real.pi : ℂ) * Complex.I) * ((n : ℂ) * ((N + 1 : ℕ) : ℂ)) := by ring
        rw [hrw] at hmul
        have hlhs : 2 * (Real.pi : ℂ) * Complex.I * (t : ℂ) =
            (2 * (Real.pi : ℂ) * Complex.I) * (t : ℂ) := by ring
        rw [hlhs] at hmul
        exact mul_left_cancel₀ h2pi hmul
      have hti : t = n * ((N + 1 : ℕ) : ℤ) := by exact_mod_cast hct
      exact h ⟨n, by rw [hti]; ring⟩
    have hsum : ∑ k : Fin (N + 1), fker (N + 1) (k.val * t) =
        ∑ i ∈ Finset.range (N + 1), z ^ i := by
      rw [Finset.sum_congr rfl (fun k _ => hzpow k)]
      exact Fin.sum_univ_eq_sum_range (fun i => z ^ i) (N + 1)
    rw [if_neg h, hsum, geom_sum_eq hz1, hzN]
    simp

/-- Divisibility by the axis length pins two indices of that axis together. -/
lemma dvd_sub_val_iff (N : ℕ) (n m : Fin (N + 1)) :
    ((N + 1 : ℕ) : ℤ) ∣ ((n.val : ℤ) - m.val) ↔ m = n := by
  constructor
  · intro hdvd
    have hn := n.isLt
    have hm := m.isLt
    have habs : ((n.val : ℤ) - m.val).natAbs < N + 1 := by omega
    have hnat : (N + 1) ∣ ((n.val : ℤ) - m.val).natAbs := by
      have h2 := Int.natAbs_dvd_natAbs.mpr hdvd
      simp only [Int.natAbs_ofNat] at h2
      exact h2
    have hz : ((n.val : ℤ) - m.val).natAbs = 0 :=
      Nat.eq_zero_of_dvd_of_lt hnat habs
    have : n.val = m.val := by omega
    exact (Fin.ext this.symm)
  · intro hmn
    subst hmn
    simp

lemma dftAx1_dftAx1 (s : ℤ) (hs : s = 1 ∨ s = -1) {B N₁ N₂ : ℕ}
    (x : CF B N₁ N₂) (b : Fin B) (c : Fin 2) (n₁ : Fin (N₁ + 1)) (n₂ : Fin (N₂ + 1)) :
    dftAx1 s (dftAx1 (-s) x) b c n₁ n₂ = ((N₁ + 1 : ℕ) : ℂ) * x b c n₁ n₂ := by
  simp only [dftAx1]
  have hker : ∀ (k m : Fin (N₁ + 1)),
      fker (N₁ + 1) (-s * (k.val * m.val)) * fker (N₁ + 1) (s * (n₁.val * k.val)) =
        fker (N₁ + 1) (k.val * (s * ((n₁.val : ℤ) - m.val))) := by
    intro k m
    rw [← fker_add]
    congr 1
    ring
  calc ∑ k : Fin (N₁ + 1),
        (∑ m : Fin (N₁ + 1), x b c m n₂ * fker (N₁ + 1) (-s * (k.val * m.val))) *
          fker (N₁ + 1) (s * (n₁.val * k.val))
      = ∑ k : Fin (N₁ + 1), ∑ m : Fin (N₁ + 1),
          x b c m n₂ * fker (N₁ + 1) (k.val * (s * ((n₁.val : ℤ) - m.val))) := by
        refine Finset.sum_congr rfl (fun k _ => ?_)
        rw [Finset.sum_mul]
        refine Finset.sum_congr rfl (fun m _ => ?_)
        rw [mul_assoc, hker k m]
    _ = ∑ m : Fin (N₁ + 1), x b c m n₂ *
          ∑ k : Fin (N₁ + 1), fker (N₁ + 1) (k.val * (s * ((n₁.val : ℤ) - m.val))) := by
        rw [Finset.sum_comm]
        exact Finset.sum_congr rfl (fun m _ => by rw [Finset.mul_sum])
    _ = ∑ m : Fin (N₁ + 1), x b c m n₂ *
          (if m = n₁ then ((N₁ + 1 : ℕ) : ℂ) else 0) := by
        refine Finset.sum_congr rfl (fun m _ => ?_)
        rw [sum_fker_val_mul]
        congr 1
        have hdvd : (((N₁ + 1 : ℕ) : ℤ) ∣ s * ((n₁.val : ℤ) - m.val)) ↔ m = n₁ := by
          rw [← dvd_sub_val_iff (N := N₁) n₁ m]
          rcases hs with h1 | h1 <;> subst h1
          · simp
          · rw [neg_one_mul, Int.dvd_neg]
        push_cast at hdvd
        simp [hdvd]
    _ = ((N₁ + 1 : ℕ) : ℂ) * x b c n₁ n₂ := by
        rw [Finset.sum_congr rfl (fun m _ => by rw [mul_ite, mul_zero])]
        rw [Finset.sum_ite_eq' Finset.univ n₁ (fun m => x b c m n₂ * ((N₁ + 1 : ℕ) : ℂ))]
        simp [mul_comm]

lemma dftAx2_dftAx2 (s : ℤ) (hs : s = 1 ∨ s = -1) {B N₁ N₂ : ℕ}
    (x : CF B N₁ N₂) (b : Fin B) (c : Fin 2) (n₁ : Fin (N₁ + 1)) (n₂ : Fin (N₂ + 1)) :
    dftAx2 s (dftAx2 (-s) x) b c n₁ n₂ = ((N₂ + 1 : ℕ) : ℂ) * x b c n₁ n₂ := by
  simp only [dftAx2]
  have hker : ∀ (k m : Fin (N₂ + 1)),
      fker (N₂ + 1) (-s * (k.val * m.val)) * fker (N₂ + 1) (s * (n₂.val * k.val)) =
        fker (N₂ + 1) (k.val * (s * ((n₂.val : ℤ) - m.val))) := by
    intro k m
    rw [← fker_add]
    congr 1
    ring
  calc ∑ k : Fin (N₂ + 1),
        (∑ m : Fin (N₂ + 1), x b c n₁ m * fker (N₂ + 1) (-s * (k.val * m.val))) *
          fker (N₂ + 1) (s * (n₂.val * k.val))
      = ∑ k : Fin (N₂ + 1), ∑ m : Fin (N₂ + 1),
          x b c n₁ m * fker (N₂ + 1) (k.val * (s * ((n₂.val : ℤ) - m.val))) := by
        refine Finset.sum_congr rfl (fun k _ => ?_)
        rw [Finset.sum_mul]
        refine Finset.sum_congr rfl (fun m _ => ?_)
        rw [mul_assoc, hker k m]
    _ = ∑ m : Fin (N₂ + 1), x b c n₁ m *
          ∑ k : Fin (N₂ + 1), fker (N₂ + 1) (k.val * (s * ((n₂.val : ℤ) - m.val))) := by
        rw [Finset.sum_comm]
        exact Finset.sum_congr rfl (fun m _ => by rw [Finset.mul_sum])
    _ = ∑ m : Fin (N₂ + 1), x b c n₁ m *
          (if m = n₂ then ((N₂ + 1 : ℕ) : ℂ) else 0) := by
        refine Finset.sum_congr rfl (fun m _ => ?_)
        rw [sum_fker_val_mul]
        congr 1
        have hdvd : (((N₂ + 1 : ℕ) : ℤ) ∣ s * ((n₂.val : ℤ) - m.val)) ↔ m = n₂ := by
          rw [← dvd_sub_val_iff (N := N₂) n₂ m]
          rcases hs with h1 | h1 <;> subst h1
          · simp
          · rw [neg_one_mul, Int.dvd_neg]
        push_cast at hdvd
        simp [hdvd]
    _ = ((N₂ + 1 : ℕ) : ℂ) * x b c n₁ n₂ := by
        rw [Finset.sum_congr rfl (fun m _ => by rw [mul_ite, mul_zero])]
        rw [Finset.sum_ite_eq' Finset.univ n₂ (fun m => x b c n₁ m * ((N₂ + 1 : ℕ) : ℂ))]
        simp [mul_comm]

/-- Transforms along different spatial axes commute. -/
lemma dftAx1_dftAx2_comm (s t : ℤ) {B N₁ N₂ : ℕ} (x : CF B N₁ N₂) :
    dftAx1 s (dftAx2 t x) = dftAx2 t (dftAx1 s x) := by
  funext b c k₁ k₂
  simp only [dftAx1, dftAx2, Finset.sum_mul]
  rw [Finset.sum_comm]
  exact Finset.sum_congr rfl fun m₂ _ => Finset.sum_congr rfl fun m₁ _ => by ring

lemma idftRaw_dftRaw {B N₁ N₂ : ℕ} (x : CF B N₁ N₂) (b : Fin B) (c : Fin 2)
    (n₁ : Fin (N₁ + 1)) (n₂ : Fin (N₂ + 1)) :
    idftRaw (dftRaw x) b c n₁ n₂ = ((Ntot N₁ N₂ : ℕ) : ℂ) * x b c n₁ n₂ := by
  rw [idftRaw, dftRaw]
  have hcomm : dftAx1 1 (dftAx2 (-1) (dftAx1 (-1) x)) =
      dftAx2 (-1) (dftAx1 1 (dftAx1 (-1) x)) := dftAx1_dftAx2_comm 1 (-1) _
  rw [hcomm]
  have h1 : dftAx1 1 (dftAx1 (-1) x) =
      fun b c n₁ n₂ => ((N₁ + 1 : ℕ) : ℂ) * x b c n₁ n₂ := by
    funext b c n₁ n₂
    exact dftAx1_dftAx1 1 (Or.inl rfl) x b c n₁ n₂
  rw [h1]
  have h2 := dftAx2_dftAx2 1 (Or.inl rfl)
      (fun b c n₁ n₂ => ((N₁ + 1 : ℕ) : ℂ) * x b c n₁ n₂) b c n₁ n₂
  rw [h2, Ntot]
  push_cast
  ring

lemma dftRaw_idftRaw {B N₁ N₂ : ℕ} (X : CF B N₁ N₂) (b : Fin B) (c : Fin 2)
    (k₁ : Fin (N₁ + 1)) (k₂ : Fin (N₂ + 1)) :
    dftRaw (idftRaw X) b c k₁ k₂ = ((Ntot N₁ N₂ : ℕ) : ℂ) * X b c k₁ k₂ := by
  rw [idftRaw, dftRaw]
  have hcomm : dftAx1 (-1) (dftAx2 1 (dftAx1 1 X)) =
      dftAx2 1 (dftAx1 (-1) (dftAx1 1 X)) := dftAx1_dftAx2_comm (-1) 1 _
  rw [hcomm]
  have h1 : dftAx1 (-1) (dftAx1 1 X) =
      fun b c n₁ n₂ => ((N₁ + 1 : ℕ) : ℂ) * X b c n₁ n₂ := by
    funext b c n₁ n₂
    have := dftAx1_dftAx1 (-1) (Or.inr rfl) X b c n₁ n₂
    simpa using this
  rw [h1]
  have h2 := dftAx2_dftAx2 (-1) (Or.inr rfl)
      (fun b c n₁ n₂ => ((N₁ + 1 : ℕ) : ℂ) * X b c n₁ n₂) b c k₁ k₂
  simp only [neg_neg] at h2
  rw [h2, Ntot]
  push_cast
  ring

lemma lutcos_nonneg (N k : ℕ) : 0 ≤ lutcos N k := by
  rw [lutcos]
  have := Real.cos_le_one (2 * Real.pi * k / N)
  linarith

lemma lutcos_zero (N : ℕ) : lutcos N 0 = 0 := by
  rw [lutcos]
  norm_num

lemma lutsin_zero (N : ℕ) : lutsin N 0 = 0 := by
  rw [lutsin]
  norm_num

/-- The determinant of the per-frequency matrix factors through its two
eigenvalue directions. -/
lemma detA_factor (al be ga : ℝ) (N₁ N₂ : ℕ) (k₁ : Fin (N₁ + 1)) (k₂ : Fin (N₂ + 1)) :
    detA al be ga N₁ N₂ k₁ k₂ =
      (al * Lop N₁ N₂ k₁ k₂ + ga) *
        (al * Lop N₁ N₂ k₁ k₂ + ga +
          be * (svec N₁ N₂ k₁ k₂ 0 ^ 2 + svec N₁ N₂ k₁ k₂ 1 ^ 2)) := by
  simp only [detA, Amat]
  norm_num
  ring

/-- Under nonnegative `alpha, beta` and positive `gamma` the per-frequency
matrix is nonsingular at every frequency. -/
lemma detA_pos (al be ga : ℝ) (N₁ N₂ : ℕ) (k₁ : Fin (N₁ + 1)) (k₂ : Fin (N₂ + 1))
    (ha : 0 ≤ al) (hb : 0 ≤ be) (hg : 0 < ga) :
    0 < detA al be ga N₁ N₂ k₁ k₂ := by
  rw [detA_factor]
  have hL : 0 ≤ Lop N₁ N₂ k₁ k₂ :=
    add_nonneg (lutcos_nonneg _ _) (lutcos_nonneg _ _)
  have h1 : 0 < al * Lop N₁ N₂ k₁ k₂ + ga := by nlinarith
  have h2 : 0 < al * Lop N₁ N₂ k₁ k₂ + ga +
      be * (svec N₁ N₂ k₁ k₂ 0 ^ 2 + svec N₁ N₂ k₁ k₂ 1 ^ 2) := by
    nlinarith [sq_nonneg (svec N₁ N₂ k₁ k₂ 0), sq_nonneg (svec N₁ N₂ k₁ k₂ 1)]
  exact mul_pos h1 h2

/-- Case disjunction for channel indices. -/
lemma fin2_cases (i : Fin 2) : i = 0 ∨ i = 1 := by
  fin_cases i
  · exact Or.inl rfl
  · exact Or.inr rfl

lemma Amat_mul_AmatInv (al be ga : ℝ) (N₁ N₂ : ℕ) (k₁ : Fin (N₁ + 1))
    (k₂ : Fin (N₂ + 1)) (h : detA al be ga N₁ N₂ k₁ k₂ ≠ 0) (i l : Fin 2) :
    Amat al be ga N₁ N₂ k₁ k₂ i 0 * AmatInv al be ga N₁ N₂ k₁ k₂ 0 l +
      Amat al be ga N₁ N₂ k₁ k₂ i 1 * AmatInv al be ga N₁ N₂ k₁ k₂ 1 l =
      if i = l then 1 else 0 := by
  rcases fin2_cases i with hi | hi <;> rcases fin2_cases l with hl | hl <;>
      subst hi <;> subst hl <;>
    · norm_num [AmatInv]
      rw [← mul_div_assoc, ← mul_div_assoc, div_add_div_same, div_eq_iff h, detA]
      ring

lemma AmatInv_mul_Amat (al be ga : ℝ) (N₁ N₂ : ℕ) (k₁ : Fin (N₁ + 1))
    (k₂ : Fin (N₂ + 1)) (h : detA al be ga N₁ N₂ k₁ k₂ ≠ 0) (i l : Fin 2) :
    AmatInv al be ga N₁ N₂ k₁ k₂ i 0 * Amat al be ga N₁ N₂ k₁ k₂ 0 l +
      AmatInv al be ga N₁ N₂ k₁ k₂ i 1 * Amat al be ga N₁ N₂ k₁ k₂ 1 l =
      if i = l then 1 else 0 := by
  rcases fin2_cases i with hi | hi <;> rcases fin2_cases l with hl | hl <;>
      subst hi <;> subst hl <;>
    · norm_num [AmatInv]
      rw [div_mul_eq_mul_div, div_mul_eq_mul_div, div_add_div_same, div_eq_iff h, detA]
      ring

/-- Applying the forward operator after the closed-form inverse restores the
spectrum, frequency by frequency, whenever the matrix is nonsingular. -/
lemma forward_inverse_cancel (al be ga : ℝ) {B N₁ N₂ : ℕ}
    (hdet : ∀ (k₁ : Fin (N₁ + 1)) (k₂ : Fin (N₂ + 1)), detA al be ga N₁ N₂ k₁ k₂ ≠ 0)
    (F : CF B N₁ N₂) :
    forward_operator_2d al be ga (inverse_operator_2d al be ga F) = F := by
  funext b i k₁ k₂
  simp only [forward_operator_2d, inverse_operator_2d, Fin.sum_univ_two]
  have h00 := Amat_mul_AmatInv al be ga N₁ N₂ k₁ k₂ (hdet k₁ k₂) i 0
  have h01 := Amat_mul_AmatInv al be ga N₁ N₂ k₁ k₂ (hdet k₁ k₂) i 1
  have c00 : ((Amat al be ga N₁ N₂ k₁ k₂ i 0 : ℝ) : ℂ) *
        ((AmatInv al be ga N₁ N₂ k₁ k₂ 0 0 : ℝ) : ℂ) +
      ((Amat al be ga N₁ N₂ k₁ k₂ i 1 : ℝ) : ℂ) *
        ((AmatInv al be ga N₁ N₂ k₁ k₂ 1 0 : ℝ) : ℂ) =
      if i = 0 then 1 else 0 := by
    rw [← Complex.ofReal_mul, ← Complex.ofReal_mul, ← Complex.ofReal_add, h00]
    split <;> simp
  have c01 : ((Amat al be ga N₁ N₂ k₁ k₂ i 0 : ℝ) : ℂ) *
        ((AmatInv al be ga N₁ N₂ k₁ k₂ 0 1 : ℝ) : ℂ) +
      ((Amat al be ga N₁ N₂ k₁ k₂ i 1 : ℝ) : ℂ) *
        ((AmatInv al be ga N₁ N₂ k₁ k₂ 1 1 : ℝ) : ℂ) =
      if i = 1 then 1 else 0 := by
    rw [← Complex.ofReal_mul, ← Complex.ofReal_mul, ← Complex.ofReal_add, h01]
    split <;> simp
  rcases fin2_cases i with hi | hi <;> subst hi
  · rw [if_pos rfl] at c00
    rw [if_neg (by decide)] at c01
    linear_combination F b 0 k₁ k₂ * c00 + F b 1 k₁ k₂ * c01
  · rw [if_neg (by decide)] at c00
    rw [if_pos rfl] at c01
    linear_combination F b 0 k₁ k₂ * c00 + F b 1 k₁ k₂ * c01

/-- Applying the closed-form inverse after the forward operator restores the
spectrum, frequency by frequency, whenever the matrix is nonsingular. -/
lemma inverse_forward_cancel (al be ga : ℝ) {B N₁ N₂ : ℕ}
    (hdet : ∀ (k₁ : Fin (N₁ + 1)) (k₂ : Fin (N₂ + 1)), detA al be ga N₁ N₂ k₁ k₂ ≠ 0)
    (F : CF B N₁ N₂) :
    inverse_operator_2d al be ga (forward_operator_2d al be ga F) = F := by
  funext b i k₁ k₂
  simp only [forward_operator_2d, inverse_operator_2d, Fin.sum_univ_two]
  have h00 := AmatInv_mul_Amat al be ga N₁ N₂ k₁ k₂ (hdet k₁ k₂) i 0
  have h01 := AmatInv_mul_Amat al be ga N₁ N₂ k₁ k₂ (hdet k₁ k₂) i 1
  have c00 : ((AmatInv al be ga N₁ N₂ k₁ k₂ i 0 : ℝ) : ℂ) *
        ((Amat al be ga N₁ N₂ k₁ k₂ 0 0 : ℝ) : ℂ) +
      ((AmatInv al be ga N₁ N₂ k₁ k₂ i 1 : ℝ) : ℂ) *
        ((Amat al be ga N₁ N₂ k₁ k₂ 1 0 : ℝ) : ℂ) =
      if i = 0 then 1 else 0 := by
    rw [← Complex.ofReal_mul, ← Complex.ofReal_mul, ← Complex.ofReal_add, h00]
    split <;> simp
  have c01 : ((AmatInv al be ga N₁ N₂ k₁ k₂ i 0 : ℝ) : ℂ) *
        ((Amat al be ga N₁ N₂ k₁ k₂ 0 1 : ℝ) : ℂ) +
      ((AmatInv al be ga N₁ N₂ k₁ k₂ i 1 : ℝ) : ℂ) *
        ((Amat al be ga N₁ N₂ k₁ k₂ 1 1 : ℝ) : ℂ) =
      if i = 1 then 1 else 0 := by
    rw [← Complex.ofReal_mul, ← Complex.ofReal_mul, ← Complex.ofReal_add, h01]
    split <;> simp
  rcases fin2_cases i with hi | hi <;> subst hi
  · rw [if_pos rfl] at c00
    rw [if_neg (by decide)] at c01
    linear_combination F b 0 k₁ k₂ * c00 + F b 1 k₁ k₂ * c01
  · rw [if_neg (by decide)] at c00
    rw [if_pos rfl] at c01
    linear_combination F b 0 k₁ k₂ * c00 + F b 1 k₁ k₂ * c01

lemma forward_operator_2d_const_mul (al be ga : ℝ) {B N₁ N₂ : ℕ} (c : ℂ)
    (F : CF B N₁ N₂) :
    forward_operator_2d al be ga (fun b j k₁ k₂ => c * F b j k₁ k₂) =
      fun b i k₁ k₂ => c * forward_operator_2d al be ga F b i k₁ k₂ := by
  funext b i k₁ k₂
  simp only [forward_operator_2d]
  rw [Finset.mul_sum]
  exact Finset.sum_congr rfl fun j _ => by ring

lemma inverse_operator_2d_const_mul (al be ga : ℝ) {B N₁ N₂ : ℕ} (c : ℂ)
    (F : CF B N₁ N₂) :
    inverse_operator_2d al be ga (fun b j k₁ k₂ => c * F b j k₁ k₂) =
      fun b i k₁ k₂ => c * inverse_operator_2d al be ga F b i k₁ k₂ := by
  funext b i k₁ k₂
  simp only [inverse_operator_2d]
  rw [Finset.mul_sum]
  exact Finset.sum_congr rfl fun j _ => by ring

lemma dftAx1_const_mul (s : ℤ) {B N₁ N₂ : ℕ} (c : ℂ) (x : CF B N₁ N₂) :
    dftAx1 s (fun b ch i j => c * x b ch i j) =
      fun b ch i j => c * dftAx1 s x b ch i j := by
  funext b ch i j
  simp only [dftAx1]
  rw [Finset.mul_sum]
  exact Finset.sum_congr rfl fun m _ => by ring

lemma dftAx2_const_mul (s : ℤ) {B N₁ N₂ : ℕ} (c : ℂ) (x : CF B N₁ N₂) :
    dftAx2 s (fun b ch i j => c * x b ch i j) =
      fun b ch i j => c * dftAx2 s x b ch i j := by
  funext b ch i j
  simp only [dftAx2]
  rw [Finset.mul_sum]
  exact Finset.sum_congr rfl fun m _ => by ring

lemma dftRaw_const_mul {B N₁ N₂ : ℕ} (c : ℂ) (x : CF B N₁ N₂) :
    dftRaw (fun b ch i j => c * x b ch i j) =
      fun b ch i j => c * dftRaw x b ch i j := by
  rw [dftRaw, dftAx1_const_mul, dftAx2_const_mul]
  rfl

lemma idftRaw_const_mul {B N₁ N₂ : ℕ} (c : ℂ) (x : CF B N₁ N₂) :
    idftRaw (fun b ch i j => c * x b ch i j) =
      fun b ch i j => c * idftRaw x b ch i j := by
  rw [idftRaw, dftAx1_const_mul, dftAx2_const_mul]
  rfl

lemma Ntot_ne_zero (N₁ N₂ : ℕ) : ((Ntot N₁ N₂ : ℕ) : ℂ) ≠ 0 := by
  have h : Ntot N₁ N₂ ≠ 0 := by
    rw [Ntot]
    exact Nat.mul_ne_zero (Nat.succ_ne_zero _) (Nat.succ_ne_zero _)
  exact_mod_cast h

/-- Exact-arithmetic round trip `flat ∘ sharp = id` at every grid point,
given a nonsingular per-frequency matrix. -/
lemma flat_sharp_eq (al be ga : ℝ) {B N₁ N₂ : ℕ}
    (hdet : ∀ (k₁ : Fin (N₁ + 1)) (k₂ : Fin (N₂ + 1)), detA al be ga N₁ N₂ k₁ k₂ ≠ 0)
    (m : CF B N₁ N₂) :
    flat al be ga (sharp al be ga m) = m := by
  have hN := Ntot_ne_zero N₁ N₂
  funext b c n₁ n₂
  rw [flat]
  have hstep1 : dftRaw (sharp al be ga m) =
      fun b j k₁ k₂ => ((Ntot N₁ N₂ : ℕ) : ℂ) *
        inverse_operator_2d al be ga
          (fun b c k₁ k₂ => dftRaw m b c k₁ k₂ / ((Ntot N₁ N₂ : ℕ) : ℂ)) b j k₁ k₂ := by
    funext b j k₁ k₂
    rw [sharp]
    exact dftRaw_idftRaw _ b j k₁ k₂
  rw [hstep1, forward_operator_2d_const_mul]
  have hstep2 : forward_operator_2d al be ga
      (inverse_operator_2d al be ga
        (fun b c k₁ k₂ => dftRaw m b c k₁ k₂ / ((Ntot N₁ N₂ : ℕ) : ℂ))) =
      fun b c k₁ k₂ => dftRaw m b c k₁ k₂ / ((Ntot N₁ N₂ : ℕ) : ℂ) :=
    forward_inverse_cancel al be ga hdet _
  have hstep3 : (fun b i k₁ k₂ => ((Ntot N₁ N₂ : ℕ) : ℂ) *
      forward_operator_2d al be ga
        (inverse_operator_2d al be ga
          (fun b c k₁ k₂ => dftRaw m b c k₁ k₂ / ((Ntot N₁ N₂ : ℕ) : ℂ))) b i k₁ k₂) =
      dftRaw m := by
    rw [hstep2]
    funext b i k₁ k₂
    rw [mul_comm]
    exact div_mul_cancel₀ _ hN
  rw [hstep3, idftRaw_dftRaw]
  exact mul_div_cancel_left₀ _ hN

/-- Exact-arithmetic round trip `sharp ∘ flat = id` at every grid point,
given a nonsingular per-frequency matrix. -/
lemma sharp_flat_eq (al be ga : ℝ) {B N₁ N₂ : ℕ}
    (hdet : ∀ (k₁ : Fin (N₁ + 1)) (k₂ : Fin (N₂ + 1)), detA al be ga N₁ N₂ k₁ k₂ ≠ 0)
    (v : CF B N₁ N₂) :
    sharp al be ga (flat al be ga v) = v := by
  have hN := Ntot_ne_zero N₁ N₂
  rw [sharp]
  have hflat : flat al be ga v =
      fun b ch i j => (((Ntot N₁ N₂ : ℕ) : ℂ))⁻¹ *
        idftRaw (forward_operator_2d al be ga (dftRaw v)) b ch i j := by
    funext b ch i j
    rw [flat, div_eq_inv_mul]
  have hstep1 : dftRaw (flat al be ga v) =
      fun b ch k₁ k₂ => (((Ntot N₁ N₂ : ℕ) : ℂ))⁻¹ *
        dftRaw (idftRaw (forward_operator_2d al be ga (dftRaw v))) b ch k₁ k₂ := by
    rw [hflat, dftRaw_const_mul]
  have hstep2 : (fun b c k₁ k₂ => dftRaw (flat al be ga v) b c k₁ k₂ /
      ((Ntot N₁ N₂ : ℕ) : ℂ)) = fun b c k₁ k₂ =>
        (((Ntot N₁ N₂ : ℕ) : ℂ))⁻¹ *
          forward_operator_2d al be ga (dftRaw v) b c k₁ k₂ := by
    funext b c k₁ k₂
    simp only [hstep1]
    rw [dftRaw_idftRaw, inv_mul_cancel_left₀ hN, div_eq_inv_mul]
  rw [hstep2, inverse_operator_2d_const_mul, inverse_forward_cancel al be ga hdet]
  funext b c n₁ n₂
  simp only [idftRaw_const_mul]
  rw [idftRaw_dftRaw]
  exact inv_mul_cancel_left₀ hN _

lemma fker_zero (N : ℕ) : fker N 0 = 1 := by
  rw [fker]
  simp

/-- `sharp` maps the all-zero field to the all-zero field. -/
lemma sharp_zero (al be ga : ℝ) (B N₁ N₂ : ℕ) :
    sharp al be ga (fun _ _ _ _ => (0 : ℂ)) = (fun _ _ _ _ => 0 : CF B N₁ N₂) := by
  funext b c n₁ n₂
  simp [sharp, idftRaw, dftRaw, dftAx1, dftAx2, inverse_operator_2d]

/-- `flat` maps the all-zero field to the all-zero field. -/
lemma flat_zero (al be ga : ℝ) (B N₁ N₂ : ℕ) :
    flat al be ga (fun _ _ _ _ => (0 : ℂ)) = (fun _ _ _ _ => 0 : CF B N₁ N₂) := by
  funext b c n₁ n₂
  simp [flat, idftRaw, dftRaw, dftAx1, dftAx2, forward_operator_2d]

/-- C1, amended statement.  For well-conditioned coefficients with
nonnegative `alpha` and `beta` (hence `gamma > 0`), `flat ∘ sharp` and
`sharp ∘ flat` are exact mutual inverses on every grid field, in exact
arithmetic. -/
theorem C1_sharp_flat_mutual_inverses (al be ga : ℝ) (B N₁ N₂ : ℕ)
    (ha : 0 ≤ al) (hb : 0 ≤ be) (hcond : 4 * al + 2 * be < ga)
    (m v : CF B N₁ N₂) :
    flat al be ga (sharp al be ga m) = m ∧
      sharp al be ga (flat al be ga v) = v := by
  have hg : 0 < ga := lt_of_le_of_lt (by positivity) hcond
  have hdet : ∀ (k₁ : Fin (N₁ + 1)) (k₂ : Fin (N₂ + 1)),
      detA al be ga N₁ N₂ k₁ k₂ ≠ 0 :=
    fun k₁ k₂ => ne_of_gt (detA_pos al be ga N₁ N₂ k₁ k₂ ha hb hg)
  exact ⟨flat_sharp_eq al be ga hdet m, sharp_flat_eq al be ga hdet v⟩

/-- C1 witness: the round trips hold concretely for `alpha = beta = 0`,
`gamma = 1` on a 1×1 grid with the constant-one field. -/
theorem C1_witness :
    (0 : ℝ) ≤ 0 ∧ (0 : ℝ) ≤ 0 ∧ 4 * (0 : ℝ) + 2 * 0 < 1 ∧
      (flat 0 0 1 (sharp 0 0 1 (fun _ _ _ _ => 1 : CF 1 0 0)) =
          (fun _ _ _ _ => 1 : CF 1 0 0) ∧
        sharp 0 0 1 (flat 0 0 1 (fun _ _ _ _ => 1 : CF 1 0 0)) =
          (fun _ _ _ _ => 1 : CF 1 0 0)) :=
  ⟨le_refl 0, le_refl 0, by norm_num,
    C1_sharp_flat_mutual_inverses 0 0 1 1 0 0 (le_refl 0) (le_refl 0)
      (by norm_num) (fun _ _ _ _ => 1) (fun _ _ _ _ => 1)⟩

lemma fker_one (t : ℤ) : fker 1 t = 1 := by
  rw [fker]
  have h : (2 * Real.pi * Complex.I * (t : ℂ) / ((1 : ℕ) : ℂ)) =
      (t : ℂ) * (2 * (Real.pi : ℂ) * Complex.I) := by
    push_cast
    ring
  rw [h]
  exact Complex.exp_int_mul_two_pi_mul_I t

lemma fker_four_two : fker 4 2 = -1 := by
  rw [fker]
  have h : (2 * Real.pi * Complex.I * (((2 : ℤ) : ℂ)) / ((4 : ℕ) : ℂ)) =
      (Real.pi : ℂ) * Complex.I := by
    push_cast
    ring
  rw [h]
  exact Complex.exp_pi_mul_I

lemma fker_four_neg_two : fker 4 (-2) = -1 := by
  have h := fker_add 4 2 (-2)
  rw [show (2 : ℤ) + -2 = 0 by ring, fker_zero, fker_four_two] at h
  linear_combination h

lemma fker_four_neg_four : fker 4 (-4) = 1 := by
  have h := fker_add 4 (-2) (-2)
  rw [show (-2 : ℤ) + -2 = -4 by ring] at h
  rw [h, fker_four_neg_two]
  ring

lemma fker_four_neg_six : fker 4 (-6) = -1 := by
  have h := fker_add 4 (-4) (-2)
  rw [show (-4 : ℤ) + -2 = -6 by ring] at h
  rw [h, fker_four_neg_four, fker_four_neg_two]
  ring

lemma lutcos_four_one : lutcos 4 1 = 1 := by
  rw [lutcos]
  have h : 2 * Real.pi * ((1 : ℕ) : ℝ) / ((4 : ℕ) : ℝ) = Real.pi / 2 := by
    push_cast
    ring
  rw [h, Real.cos_pi_div_two]
  norm_num

lemma lutcos_four_three : lutcos 4 3 = 1 := by
  rw [lutcos]
  have h : 2 * Real.pi * ((3 : ℕ) : ℝ) / ((4 : ℕ) : ℝ) = Real.pi / 2 + Real.pi := by
    push_cast
    ring
  rw [h, Real.cos_add_pi, Real.cos_pi_div_two]
  norm_num

/-- Case disjunction for length-four axis indices. -/
lemma fin4_cases (i : Fin (3 + 1)) : i = 0 ∨ i = 1 ∨ i = 2 ∨ i = 3 := by
  fin_cases i
  · exact Or.inl rfl
  · exact Or.inr (Or.inl rfl)
  · exact Or.inr (Or.inr (Or.inl rfl))
  · exact Or.inr (Or.inr (Or.inr rfl))

lemma dftRaw_cexM : dftRaw cexM = fun _ c k₁ _ =>
    if c = 0 ∧ (k₁ = 1 ∨ k₁ = 3) then 2 else 0 := by
  funext b c k₁ k₂
  rw [dftRaw, dftAx2, Fin.sum_univ_one, dftAx1, Fin.sum_univ_four]
  rw [fker_one]
  have v0 : (0 : Fin (3 + 1)).val = 0 := rfl
  have v1 : (1 : Fin (3 + 1)).val = 1 := rfl
  have v2 : (2 : Fin (3 + 1)).val = 2 := rfl
  have v3 : (3 : Fin (3 + 1)).val = 3 := rfl
  rcases fin2_cases c with hc | hc <;> subst hc <;>
    rcases fin4_cases k₁ with hk | hk | hk | hk <;> subst hk <;>
    · norm_num [cexM, Fin.ext_iff, v0, v1, v2, v3, fker_zero,
        fker_four_neg_two, fker_four_neg_four, fker_four_neg_six]

lemma sharp_cexM : sharp (-1) 0 1 cexM = fun _ _ _ _ => 0 := by
  rw [sharp]
  have hS : (fun b c k₁ k₂ => dftRaw cexM b c k₁ k₂ / ((Ntot 3 0 : ℕ) : ℂ)) =
      fun (b : Fin 1) (c : Fin 2) (k₁ : Fin 4) (k₂ : Fin 1) =>
        if c = 0 ∧ (k₁ = 1 ∨ k₁ = 3) then (1 / 2 : ℂ) else 0 := by
    funext b c k₁ k₂
    simp only [dftRaw_cexM]
    by_cases h : c = 0 ∧ (k₁ = 1 ∨ k₁ = 3)
    · rw [if_pos h, if_pos h, Ntot]
      norm_num
    · rw [if_neg h, if_neg h]
      simp
  rw [hS]
  have hinv : inverse_operator_2d (-1) 0 1
      (fun (b : Fin 1) (c : Fin 2) (k₁ : Fin 4) (k₂ : Fin 1) =>
        if c = 0 ∧ (k₁ = 1 ∨ k₁ = 3) then (1 / 2 : ℂ) else 0) =
      fun _ _ _ _ => (0 : ℂ) := by
    funext b i k₁ k₂
    simp only [inverse_operator_2d, Fin.sum_univ_two]
    by_cases hk : k₁ = 1 ∨ k₁ = 3
    · have hk₂ : k₂ = 0 := Fin.eq_zero k₂
      have hdet0 : detA (-1) 0 1 3 0 k₁ k₂ = 0 := by
        subst hk₂
        have v1 : (1 : Fin (3 + 1)).val = 1 := rfl
        have v3 : (3 : Fin (3 + 1)).val = 3 := rfl
        have w0 : (0 : Fin (0 + 1)).val = 0 := rfl
        rcases hk with hk | hk <;> subst hk
        · rw [detA_factor]
          have hL : Lop 3 0 1 0 = 1 := by
            rw [Lop]
            norm_num [v1, w0, lutcos_four_one, lutcos_zero]
          rw [hL]
          norm_num
        · rw [detA_factor]
          have hL : Lop 3 0 3 0 = 1 := by
            rw [Lop]
            norm_num [v3, w0, lutcos_four_three, lutcos_zero]
          rw [hL]
          norm_num
      have hI : ∀ i j : Fin 2, AmatInv (-1) 0 1 3 0 k₁ k₂ i j = 0 := by
        intro i j
        simp only [AmatInv, hdet0, div_zero]
      simp [hI]
    · have h10 : ¬ ((1 : Fin 2) = 0) := by decide
      simp [hk, h10]
  rw [hinv]
  funext b c n₁ n₂
  simp [idftRaw, dftAx1, dftAx2]

/-- C1 counterexample.  The claim as stated quantifies only over
`gamma > 4*alpha + 2*beta`; with `alpha = -1, beta = 0, gamma = 1` (which
satisfies that condition) the per-frequency matrix is singular at frequency
1 of a length-4 axis, and `flat (sharp m)` collapses the cosine momentum to
zero instead of reproducing it. -/
theorem C1_claim_counterexample :
    4 * (-1 : ℝ) + 2 * 0 < 1 ∧
      flat (-1) 0 1 (sharp (-1) 0 1 cexM) ≠ cexM := by
  refine ⟨by norm_num, ?_⟩
  rw [sharp_cexM, flat_zero]
  intro h
  have h0 := congrFun (congrFun (congrFun (congrFun h 0) 0) 0) 0
  rw [cexM] at h0
  norm_num at h0

/-- Summing the kernel in either sign over one axis picks out the zero
frequency. -/
lemma sum_fker_sk (s : ℤ) (hs : s = 1 ∨ s = -1) (N : ℕ) (k : Fin (N + 1)) :
    ∑ m : Fin (N + 1), fker (N + 1) (s * (k.val * m.val)) =
      if k = 0 then ((N + 1 : ℕ) : ℂ) else 0 := by
  have h : ∀ m : Fin (N + 1), fker (N + 1) (s * (k.val * m.val)) =
      fker (N + 1) (m.val * (s * k.val)) := fun m => by
    congr 1
    ring
  rw [Finset.sum_congr rfl (fun m _ => h m), sum_fker_val_mul]
  have hiff : (((N + 1 : ℕ) : ℤ) ∣ s * k.val) ↔ k = 0 := by
    have h0 := dvd_sub_val_iff N k 0
    rw [show ((0 : Fin (N + 1)).val : ℤ) = 0 from rfl, sub_zero] at h0
    rcases hs with h1 | h1 <;> subst h1
    · rw [one_mul, h0]
      exact eq_comm
    · rw [neg_one_mul, Int.dvd_neg, h0]
      exact eq_comm
  exact if_congr hiff rfl rfl

/-- The transform of a spatially constant field concentrates at the zero
frequency. -/
lemma dftRaw_const {B N₁ N₂ : ℕ} (cv : Fin B → Fin 2 → ℂ) :
    dftRaw (fun b c _ _ => cv b c : CF B N₁ N₂) =
      fun b c k₁ k₂ => if k₁ = 0 ∧ k₂ = 0 then ((Ntot N₁ N₂ : ℕ) : ℂ) * cv b c
        else 0 := by
  funext b c k₁ k₂
  rw [dftRaw]
  have h1 : dftAx1 (-1) (fun b c _ _ => cv b c : CF B N₁ N₂) =
      fun b c k₁ _ => if k₁ = 0 then ((N₁ + 1 : ℕ) : ℂ) * cv b c else 0 := by
    funext b c k₁ n₂
    rw [dftAx1, ← Finset.mul_sum, sum_fker_sk (-1) (Or.inr rfl) N₁ k₁]
    rw [mul_ite, mul_zero, mul_comm]
  rw [h1, dftAx2, ← Finset.mul_sum]
  rw [sum_fker_sk (-1) (Or.inr rfl) N₂ k₂]
  by_cases hk₁ : k₁ = 0 <;> by_cases hk₂ : k₂ = 0 <;>
    simp [hk₁, hk₂, Ntot]
  ring

/-- At the zero frequency both lookup entries vanish, so the operator matrix
reduces to `gamma` times the identity. -/
lemma Amat_zero_freq (al be ga : ℝ) (N₁ N₂ : ℕ) :
    Amat al be ga N₁ N₂ 0 0 = fun i j => ga * (if i = j then 1 else 0) := by
  funext i j
  rw [Amat, Lop, svec]
  rw [show ((0 : Fin (N₁ + 1)).val) = 0 from rfl,
    show ((0 : Fin (N₂ + 1)).val) = 0 from rfl, lutcos_zero, lutcos_zero,
    lutsin_zero, lutsin_zero]
  by_cases hij : i = j <;> by_cases hi : i = 0 <;> simp [hij, hi]

lemma AmatInv_zero_freq (al be ga : ℝ) (N₁ N₂ : ℕ) :
    AmatInv al be ga N₁ N₂ 0 0 =
      fun i j => (if i = j then 1 else 0) / ga := by
  funext i j
  rw [AmatInv, detA, Amat_zero_freq]
  rcases fin2_cases i with hi | hi <;> rcases fin2_cases j with hj | hj <;>
      subst hi <;> subst hj <;>
    first
    | (norm_num; field_simp; ring)
    | (norm_num; field_simp)
    | norm_num

/-- Applying `sharp` to a spatially constant field divides it by `gamma`:
the zero-frequency operator matrix is `gamma` times the identity. -/
lemma sharp_const (al be ga : ℝ) (B N₁ N₂ : ℕ) (cv : Fin B → Fin 2 → ℂ) :
    sharp al be ga (fun b c _ _ => cv b c : CF B N₁ N₂) =
      fun b c _ _ => cv b c / (ga : ℂ) := by
  rw [sharp]
  have hS : (fun b c k₁ k₂ =>
      dftRaw (fun b c _ _ => cv b c : CF B N₁ N₂) b c k₁ k₂ /
        ((Ntot N₁ N₂ : ℕ) : ℂ)) =
      fun b c k₁ k₂ => if k₁ = 0 ∧ k₂ = 0 then cv b c else 0 := by
    funext b c k₁ k₂
    simp only [dftRaw_const]
    by_cases h : k₁ = 0 ∧ k₂ = 0
    · rw [if_pos h, if_pos h, mul_comm, mul_div_assoc,
        div_self (Ntot_ne_zero N₁ N₂), mul_one]
    · rw [if_neg h, if_neg h, zero_div]
  rw [hS]
  have hT : inverse_operator_2d al be ga
      (fun b c k₁ k₂ => if k₁ = 0 ∧ k₂ = 0 then cv b c else 0 : CF B N₁ N₂) =
      fun b i k₁ k₂ => if k₁ = 0 ∧ k₂ = 0 then cv b i / (ga : ℂ) else 0 := by
    funext b i k₁ k₂
    simp only [inverse_operator_2d, Fin.sum_univ_two]
    by_cases h : k₁ = 0 ∧ k₂ = 0
    · obtain ⟨h1, h2⟩ := h
      subst h1
      subst h2
      rw [AmatInv_zero_freq]
      rcases fin2_cases i with hi | hi <;> subst hi <;>
        · norm_num
          push_cast
          ring
    · rw [if_neg h, if_neg h, if_neg h, mul_zero, mul_zero, add_zero]
  rw [hT]
  funext b c n₁ n₂
  rw [idftRaw]
  have h1 : dftAx1 1
      (fun b i k₁ k₂ => if k₁ = 0 ∧ k₂ = 0 then cv b i / (ga : ℂ) else 0 :
        CF B N₁ N₂) =
      fun b i _ m₂ => if m₂ = 0 then cv b i / (ga : ℂ) else 0 := by
    funext b i j₁ m₂
    rw [dftAx1]
    rw [Finset.sum_eq_single (0 : Fin (N₁ + 1))]
    · simp [show ((0 : Fin (N₁ + 1)).val) = 0 from rfl, fker_zero]
    · intro m₁ _ hm₁
      simp [hm₁]
    · intro h0
      exact absurd (Finset.mem_univ _) h0
  rw [h1, dftAx2]
  rw [Finset.sum_eq_single (0 : Fin (N₂ + 1))]
  · simp [show ((0 : Fin (N₂ + 1)).val) = 0 from rfl, fker_zero]
  · intro m₂ _ hm₂
    simp [hm₂]
  · intro h0
    exact absurd (Finset.mem_univ _) h0

/-- C5.  For every spatially constant momentum field on a 2-D grid, `sharp`
divides the field by `gamma` component-wise; the per-axis lookup entries
`1 - cos` and `sin` vanish at frequency 0, so the zero-frequency operator
matrix is `gamma` times the identity. -/
theorem C5_sharp_constant_field (al be ga : ℝ) (B N₁ N₂ : ℕ)
    (hga : ga ≠ 0) (cv : Fin B → Fin 2 → ℂ) :
    sharp al be ga (fun b c _ _ => cv b c : CF B N₁ N₂) =
        (fun b c _ _ => cv b c / (ga : ℂ)) ∧
      (∀ N : ℕ, lutcos N 0 = 0 ∧ lutsin N 0 = 0) ∧
      Amat al be ga N₁ N₂ 0 0 = fun i j => ga * (if i = j then 1 else 0) :=
  ⟨sharp_const al be ga B N₁ N₂ cv,
    fun N => ⟨lutcos_zero N, lutsin_zero N⟩,
    Amat_zero_freq al be ga N₁ N₂⟩

/-- C5 witness: on a 1×1 grid with `gamma = 2` the constant-one momentum is
mapped by `sharp` to the constant one-half velocity. -/
theorem C5_witness :
    (2 : ℝ) ≠ 0 ∧
      (sharp 0 0 2 (fun b c _ _ => (fun _ _ => 1 : Fin 1 → Fin 2 → ℂ) b c :
          CF 1 0 0) =
          (fun b c _ _ => (fun _ _ => 1 : Fin 1 → Fin 2 → ℂ) b c / ((2 : ℝ) : ℂ)) ∧
        (∀ N : ℕ, lutcos N 0 = 0 ∧ lutsin N 0 = 0) ∧
        Amat 0 0 2 0 0 0 0 = fun i j => 2 * (if i = j then 1 else 0)) :=
  ⟨by norm_num,
    C5_sharp_constant_field 0 0 2 1 0 0 (by norm_num) (fun _ _ => 1)⟩

/-- C3, amended statement.  The construction evaluates the ill-conditioning
condition `gamma <= 4*alpha + 2*beta`, but the warning branch is guarded by
an always-false conjunct, so no warning is ever emitted — in particular
none for well-conditioned coefficients, and none for ill-conditioned
ones either. -/
theorem C3_warning_disabled (alpha beta gamma : ℝ) :
    (warningEmitted alpha beta gamma ↔ False) ∧
      (illConditioned alpha beta gamma ↔ gamma ≤ 4 * alpha + 2 * beta) :=
  ⟨⟨fun h => h.2, False.elim⟩, Iff.rfl⟩

/-- C3 counterexample.  With `alpha = beta = gamma = 1` the coefficients are
ill-conditioned (`1 ≤ 6`), yet no warning is emitted, refuting the claim
that ill-conditioning emits a non-fatal warning signal. -/
theorem C3_claim_counterexample :
    illConditioned 1 1 1 ∧ (warningEmitted 1 1 1 ↔ False) :=
  ⟨by rw [illConditioned]; norm_num, ⟨fun h => h.2, False.elim⟩⟩

/-- C4, amended statement.  For a nonempty shape: construction fails with
the dimensionality error exactly when the spatial rank `len(shape) - 2` is
neither 2 nor 3; it fails with the unsupported-precision error exactly when
the rank is valid AND the precision tag is outside {"single", "double"}
(the dimension check runs first, so an invalid rank masks an invalid
precision); construction succeeds, retaining an instance, exactly when both
are valid.  (An empty shape raises the IndexError from `shape[-1]` before
either check.) -/
theorem C4_init_validation (shape : List ℕ) (al be ga : ℝ) (p : String)
    (h : shape ≠ []) :
    ((∃ d, FluidMetric_init shape al be ga p = .error (.invalidDim d)) ↔
      ¬ ((shape.length : ℤ) - 2 = 2 ∨ (shape.length : ℤ) - 2 = 3)) ∧
    (FluidMetric_init shape al be ga p = .error (.unsupportedPrecision p) ↔
      (((shape.length : ℤ) - 2 = 2 ∨ (shape.length : ℤ) - 2 = 3) ∧
        ¬ (p = "single" ∨ p = "double"))) ∧
    ((∃ md, FluidMetric_init shape al be ga p = .ok md) ↔
      (((shape.length : ℤ) - 2 = 2 ∨ (shape.length : ℤ) - 2 = 3) ∧
        (p = "single" ∨ p = "double"))) := by
  obtain ⟨l, hl⟩ : ∃ l, shape.getLast? = some l := by
    cases hsh : shape.getLast? with
    | some l => exact ⟨l, rfl⟩
    | none => exact absurd (List.getLast?_eq_none_iff.mp hsh) h
  have hinit : FluidMetric_init shape al be ga p =
      (if (shape.length : ℤ) - 2 ≠ 2 ∧ (shape.length : ℤ) - 2 ≠ 3 then
          .error (.invalidDim ((shape.length : ℤ) - 2))
        else if p = "single" then
          .ok ⟨shape, shape.dropLast ++ [l / 2 + 1], al, be, ga,
            (shape.length : ℤ) - 2, p, 32⟩
        else if p = "double" then
          .ok ⟨shape, shape.dropLast ++ [l / 2 + 1], al, be, ga,
            (shape.length : ℤ) - 2, p, 64⟩
        else .error (.unsupportedPrecision p)) := by
    rw [FluidMetric_init, hl]
  rw [hinit]
  by_cases hd : ((shape.length : ℤ) - 2 = 2 ∨ (shape.length : ℤ) - 2 = 3)
  · rw [if_neg (by tauto)]
    by_cases hp1 : p = "single"
    · simp [hp1, hd]
    · by_cases hp2 : p = "double" <;> simp [hp1, hp2, hd]
  · rw [if_pos (by tauto)]
    simp [hd]

/-- C4 witness: constructing with shape (1,2,4,4) (rank 2) and
precision "half" fails with the unsupported-precision error, and with a
valid precision it succeeds. -/
theorem C4_witness :
    ([1, 2, 4, 4] : List ℕ) ≠ [] ∧
      (((∃ d, FluidMetric_init [1, 2, 4, 4] 1 1 3 "half" =
            .error (.invalidDim d)) ↔
          ¬ ((([1, 2, 4, 4] : List ℕ).length : ℤ) - 2 = 2 ∨
            (([1, 2, 4, 4] : List ℕ).length : ℤ) - 2 = 3)) ∧
        (FluidMetric_init [1, 2, 4, 4] 1 1 3 "half" =
            .error (.unsupportedPrecision "half") ↔
          (((([1, 2, 4, 4] : List ℕ).length : ℤ) - 2 = 2 ∨
              (([1, 2, 4, 4] : List ℕ).length : ℤ) - 2 = 3) ∧
            ¬ ("half" = "single" ∨ "half" = "double"))) ∧
        ((∃ md, FluidMetric_init [1, 2, 4, 4] 1 1 3 "half" = .ok md) ↔
          (((([1, 2, 4, 4] : List ℕ).length : ℤ) - 2 = 2 ∨
              (([1, 2, 4, 4] : List ℕ).length : ℤ) - 2 = 3) ∧
            ("half" = "single" ∨ "half" = "double")))) :=
  ⟨by decide, C4_init_validation [1, 2, 4, 4] 1 1 3 "half" (by decide)⟩

/-- C4 counterexample.  With six axes (spatial rank 4) and
precision "half" — a precision outside {"single", "double"} — construction
raises the dimensionality error, not the unsupported-precision error: the
claim's "fails with an unsupported-precision error exactly when precision
is outside {single, double}" is false because the dimension check runs
first. -/
theorem C4_claim_counterexample :
    ("half" = "single" ∨ "half" = "double") = False ∧
      FluidMetric_init [1, 2, 3, 4, 5, 6] 1 1 3 "half" =
        .error (.invalidDim 4) ∧
      (FluidMetric_init [1, 2, 3, 4, 5, 6] 1 1 3 "half" =
          .error (.unsupportedPrecision "half")) = False := by
  refine ⟨by simp, rfl, ?_⟩
  simp only [eq_iff_iff, iff_false]
  intro hcontra
  rw [show FluidMetric_init [1, 2, 3, 4, 5, 6] 1 1 3 "half" =
      .error (.invalidDim 4) from rfl] at hcontra
  simp at hcontra

/-- The grid sum of a discrete partial derivative telescopes to zero on the
periodic grid. -/
lemma sum_pd_eq_zero {N₁ N₂ : ℕ} (ax : Fin 2)
    (f : Fin (N₁ + 1) → Fin (N₂ + 1) → ℚ) :
    ∑ x : Fin (N₁ + 1), ∑ y : Fin (N₂ + 1), pd ax f x y = 0 := by
  rcases fin2_cases ax with h | h <;> subst h
  · simp only [pd, eq_self_iff_true, if_true]
    rw [Finset.sum_comm]
    refine Finset.sum_eq_zero fun y _ => ?_
    have h1 : ∑ x : Fin (N₁ + 1), f (x + 1) y = ∑ x : Fin (N₁ + 1), f x y :=
      Equiv.sum_comp (Equiv.addRight (1 : Fin (N₁ + 1))) (fun x => f x y)
    have h2 : ∑ x : Fin (N₁ + 1), f (x - 1) y = ∑ x : Fin (N₁ + 1), f x y :=
      Equiv.sum_comp (Equiv.subRight (1 : Fin (N₁ + 1))) (fun x => f x y)
    rw [← Finset.sum_div, Finset.sum_sub_distrib, h1, h2, sub_self, zero_div]
  · simp only [pd, if_neg (show ¬ (1 : Fin 2) = 0 by decide)]
    refine Finset.sum_eq_zero fun x _ => ?_
    have h1 : ∑ y : Fin (N₂ + 1), f x (y + 1) = ∑ y : Fin (N₂ + 1), f x y :=
      Equiv.sum_comp (Equiv.addRight (1 : Fin (N₂ + 1))) (fun y => f x y)
    have h2 : ∑ y : Fin (N₂ + 1), f x (y - 1) = ∑ y : Fin (N₂ + 1), f x y :=
      Equiv.sum_comp (Equiv.subRight (1 : Fin (N₂ + 1))) (fun y => f x y)
    rw [← Finset.sum_div, Finset.sum_sub_distrib, h1, h2, sub_self, zero_div]

/-- C2, amended statement.  Under the discrete inner product the pairing
identity holds exactly up to the Leibniz defect of the discrete derivative:
`⟨ad_star(v,m), w⟩ = ⟨m, ad(v,w)⟩ + pairingDefect v m w`.  The transposed
Jacobian term pairs exactly; the residual is precisely the failure of the
central difference to satisfy the product rule on `m_i·v_j·w_i`, which
vanishes in the continuum but not identically on the grid. -/
theorem C2_pairing_identity_with_defect (B N₁ N₂ : ℕ) (A : AdjRep)
    (v m w : QF B N₁ N₂) :
    ip (A.ad_star v m) w = ip m (A.ad v w) + pairingDefect v m w := by
  have hip : ∀ u z : QF B N₁ N₂, ip u z =
      ∑ bt : Fin B, ∑ x : Fin (N₁ + 1), ∑ y : Fin (N₂ + 1), ∑ i : Fin 2,
        u bt i x y * z bt i x y := by
    intro u z
    rw [ip]
    refine Finset.sum_congr rfl fun bt _ => ?_
    rw [Finset.sum_comm]
    exact Finset.sum_congr rfl fun x _ => Finset.sum_comm
  rw [hip, hip, pairingDefect, ← Finset.sum_add_distrib]
  refine Finset.sum_congr rfl fun bt _ => ?_
  have hpoint : ∀ (x : Fin (N₁ + 1)) (y : Fin (N₂ + 1)),
      (∑ i : Fin 2, A.ad_star v m bt i x y * w bt i x y) =
        (∑ i : Fin 2, m bt i x y * A.ad v w bt i x y) +
          ∑ i : Fin 2, ∑ j : Fin 2,
            (pd j (m bt i) x y * v bt j x y * w bt i x y +
              m bt i x y * w bt i x y * pd j (v bt j) x y +
              m bt i x y * v bt j x y * pd j (w bt i) x y) := by
    intro x y
    simp only [AdjRep.ad_star, AdjRep.ad, jtv, jtvT, divergence,
      Fin.sum_univ_two]
    ring
  have htele : (∑ x : Fin (N₁ + 1), ∑ y : Fin (N₂ + 1), ∑ i : Fin 2,
      ∑ j : Fin 2,
        pd j (fun a b => m bt i a b * v bt j a b * w bt i a b) x y) = 0 := by
    have hswap : (∑ x : Fin (N₁ + 1), ∑ y : Fin (N₂ + 1), ∑ i : Fin 2,
        ∑ j : Fin 2,
          pd j (fun a b => m bt i a b * v bt j a b * w bt i a b) x y) =
        ∑ i : Fin 2, ∑ j : Fin 2, ∑ x : Fin (N₁ + 1), ∑ y : Fin (N₂ + 1),
          pd j (fun a b => m bt i a b * v bt j a b * w bt i a b) x y := by
      calc ∑ x : Fin (N₁ + 1), ∑ y : Fin (N₂ + 1), ∑ i : Fin 2, ∑ j : Fin 2,
            pd j (fun a b => m bt i a b * v bt j a b * w bt i a b) x y
          = ∑ x : Fin (N₁ + 1), ∑ i : Fin 2, ∑ y : Fin (N₂ + 1), ∑ j : Fin 2,
              pd j (fun a b => m bt i a b * v bt j a b * w bt i a b) x y :=
            Finset.sum_congr rfl fun x _ => Finset.sum_comm
        _ = ∑ i : Fin 2, ∑ x : Fin (N₁ + 1), ∑ y : Fin (N₂ + 1), ∑ j : Fin 2,
              pd j (fun a b => m bt i a b * v bt j a b * w bt i a b) x y :=
            Finset.sum_comm
        _ = ∑ i : Fin 2, ∑ x : Fin (N₁ + 1), ∑ j : Fin 2, ∑ y : Fin (N₂ + 1),
              pd j (fun a b => m bt i a b * v bt j a b * w bt i a b) x y :=
            Finset.sum_congr rfl fun i _ =>
              Finset.sum_congr rfl fun x _ => Finset.sum_comm
        _ = ∑ i : Fin 2, ∑ j : Fin 2, ∑ x : Fin (N₁ + 1), ∑ y : Fin (N₂ + 1),
              pd j (fun a b => m bt i a b * v bt j a b * w bt i a b) x y :=
            Finset.sum_congr rfl fun i _ => Finset.sum_comm
    rw [hswap]
    refine Finset.sum_eq_zero fun i _ => Finset.sum_eq_zero fun j _ => ?_
    exact sum_pd_eq_zero j (fun a b => m bt i a b * v bt j a b * w bt i a b)
  calc ∑ x : Fin (N₁ + 1), ∑ y : Fin (N₂ + 1), ∑ i : Fin 2,
        A.ad_star v m bt i x y * w bt i x y
      = ∑ x : Fin (N₁ + 1), ∑ y : Fin (N₂ + 1),
          ((∑ i : Fin 2, m bt i x y * A.ad v w bt i x y) +
            ∑ i : Fin 2, ∑ j : Fin 2,
              (pd j (m bt i) x y * v bt j x y * w bt i x y +
                m bt i x y * w bt i x y * pd j (v bt j) x y +
                m bt i x y * v bt j x y * pd j (w bt i) x y)) :=
        Finset.sum_congr rfl fun x _ => Finset.sum_congr rfl fun y _ =>
          hpoint x y
    _ = (∑ x : Fin (N₁ + 1), ∑ y : Fin (N₂ + 1), ∑ i : Fin 2,
          m bt i x y * A.ad v w bt i x y) +
        ∑ x : Fin (N₁ + 1), ∑ y : Fin (N₂ + 1), ∑ i : Fin 2, ∑ j : Fin 2,
          (pd j (m bt i) x y * v bt j x y * w bt i x y +
            m bt i x y * w bt i x y * pd j (v bt j) x y +
            m bt i x y * v bt j x y * pd j (w bt i) x y) := by
        simp only [Finset.sum_add_distrib]
    _ = (∑ x : Fin (N₁ + 1), ∑ y : Fin (N₂ + 1), ∑ i : Fin 2,
          m bt i x y * A.ad v w bt i x y) +
        ((∑ x : Fin (N₁ + 1), ∑ y : Fin (N₂ + 1), ∑ i : Fin 2, ∑ j : Fin 2,
            (pd j (m bt i) x y * v bt j x y * w bt i x y +
              m bt i x y * w bt i x y * pd j (v bt j) x y +
              m bt i x y * v bt j x y * pd j (w bt i) x y -
              pd j (fun a b => m bt i a b * v bt j a b * w bt i a b) x y)) +
          ∑ x : Fin (N₁ + 1), ∑ y : Fin (N₂ + 1), ∑ i : Fin 2, ∑ j : Fin 2,
            pd j (fun a b => m bt i a b * v bt j a b * w bt i a b) x y) := by
        congr 1
        simp only [← Finset.sum_add_distrib]
        refine Finset.sum_congr rfl fun x _ => Finset.sum_congr rfl fun y _ =>
          Finset.sum_congr rfl fun i _ => Finset.sum_congr rfl fun j _ => ?_
        ring
    _ = (∑ x : Fin (N₁ + 1), ∑ y : Fin (N₂ + 1), ∑ i : Fin 2,
          m bt i x y * A.ad v w bt i x y) +
        ∑ x : Fin (N₁ + 1), ∑ y : Fin (N₂ + 1), ∑ i : Fin 2, ∑ j : Fin 2,
          (pd j (m bt i) x y * v bt j x y * w bt i x y +
            m bt i x y * w bt i x y * pd j (v bt j) x y +
            m bt i x y * v bt j x y * pd j (w bt i) x y -
            pd j (fun a b => m bt i a b * v bt j a b * w bt i a b) x y) := by
        rw [htele, add_zero]

/-- C2 counterexample.  On a 3×1 grid with impulse fields the two sides of
the pairing identity differ exactly: `⟨ad_star(v,m), w⟩ = 1/2` while
`⟨m, ad(v,w)⟩ = 0`, so the identity does not hold exactly in the discrete
setting. -/
theorem C2_claim_counterexample :
    ip (AdjRep.ad_star (AdjRep.init 2) C2v C2m) C2w = 1 / 2 ∧
      ip C2m (AdjRep.ad (AdjRep.init 2) C2v C2w) = 0 ∧
      ip (AdjRep.ad_star (AdjRep.init 2) C2v C2m) C2w ≠
        ip C2m (AdjRep.ad (AdjRep.init 2) C2v C2w) := by
  have a1 : (0 + 1 : Fin (2 + 1)) = 1 := rfl
  have a2 : (0 - 1 : Fin (2 + 1)) = 2 := rfl
  have a3 : (1 + 1 : Fin (2 + 1)) = 2 := rfl
  have a4 : (1 - 1 : Fin (2 + 1)) = 0 := rfl
  have a5 : (2 + 1 : Fin (2 + 1)) = 0 := rfl
  have a6 : (2 - 1 : Fin (2 + 1)) = 1 := rfl
  have b1 : (0 + 1 : Fin (0 + 1)) = 0 := rfl
  have b2 : (0 - 1 : Fin (0 + 1)) = 0 := rfl
  have hsum3 : ∀ f : Fin (2 + 1) → ℚ,
      ∑ x : Fin (2 + 1), f x = f 0 + f 1 + f 2 :=
    fun f => Fin.sum_univ_three f
  refine ⟨?_, ?_, ?_⟩ <;>
    norm_num [ip, AdjRep.ad_star, AdjRep.ad, AdjRep.init, jtv, jtvT,
      divergence, pd, C2v, C2m, C2w, Fin.sum_univ_two, hsum3,
      Fin.sum_univ_one, Fin.ext_iff, a1, a2, a3, a4, a5, a6, b1, b2]

/-- C6.  `ad` is bilinear and antisymmetric: it is linear in each argument,
`ad(v,w) = -ad(w,v)`, and `ad(v,v)` is the zero field. -/
theorem C6_ad_bilinear_antisymmetric (B N₁ N₂ : ℕ) (A : AdjRep) (a b : ℚ)
    (v vp w wp : QF B N₁ N₂) :
    A.ad (fun bt i x y => a * v bt i x y + b * vp bt i x y) w =
        (fun bt i x y => a * A.ad v w bt i x y + b * A.ad vp w bt i x y) ∧
      A.ad v (fun bt i x y => a * w bt i x y + b * wp bt i x y) =
        (fun bt i x y => a * A.ad v w bt i x y + b * A.ad v wp bt i x y) ∧
      A.ad v w = (fun bt i x y => -(A.ad w v bt i x y)) ∧
      A.ad v v = (fun _ _ _ _ => 0) := by
  refine ⟨?_, ?_, ?_, ?_⟩ <;>
    · funext bt i x y
      simp only [AdjRep.ad, jtv, pd, Fin.sum_univ_two]
      first
      | (norm_num; ring)
      | norm_num
      | ring

/-- C7.  `AdjRep.Ad` raises the explicit not-implemented signal on every
input, and `operator_fourier` on an instance with spatial dimension 3
raises the same signal instead of returning a numeric result. -/
theorem C7_not_implemented (B N₁ N₂ : ℕ) (A : AdjRep)
    (phi v : QF B N₁ N₂) (al be ga : ℝ) (F : CF B N₁ N₂) (inverse : Bool) :
    A.Ad phi v = .error (.notImplemented "not implemented yet") ∧
      operator_fourier 3 al be ga F inverse =
        .error (.notImplemented "not implemented yet") := by
  refine ⟨rfl, ?_⟩
  rw [operator_fourier]
  norm_num

/-- C10.  AdjRep construction succeeds for every dimension value, storing
it unvalidated, and no operation reads the stored dimension: every
operation returns identical results on instances built with any two
dimension values. -/
theorem C10_dim_never_read (B N₁ N₂ : ℕ) (d₁ d₂ : ℤ)
    (interp : QF B N₁ N₂ → QF B N₁ N₂ → QF B N₁ N₂)
    (v w phi m x y : QF B N₁ N₂) (metric : MetricOps B N₁ N₂) :
    (AdjRep.init d₁).dim = d₁ ∧
      (AdjRep.init d₁).ad v w = (AdjRep.init d₂).ad v w ∧
      (AdjRep.init d₁).ad_star v m = (AdjRep.init d₂).ad_star v m ∧
      AdjRep.Ad_star interp (AdjRep.init d₁) phi m =
        AdjRep.Ad_star interp (AdjRep.init d₂) phi m ∧
      (AdjRep.init d₁).ad_dagger x y metric =
        (AdjRep.init d₂).ad_dagger x y metric ∧
      AdjRep.Ad_dagger interp (AdjRep.init d₁) phi y metric =
        AdjRep.Ad_dagger interp (AdjRep.init d₂) phi y metric ∧
      (AdjRep.init d₁).sym x y metric = (AdjRep.init d₂).sym x y metric ∧
      (AdjRep.init d₁).sym_dagger x y metric =
        (AdjRep.init d₂).sym_dagger x y metric :=
  ⟨rfl, rfl, rfl, rfl, rfl, rfl, rfl, rfl⟩

/-- C8, amended statement.  Both `sharp` and `flat` reject a non-contiguous
input with the precondition error before doing anything else.  On accepted
input, `sharp` makes no copy of any array; `flat`, however, always passes
`m.astype(self.dtype)` to the FFT, which allocates a cast copy of the input
(with unchanged contents) before transforming — so the "never silently
copied" half of the claim holds for `sharp` but not for `flat`. -/
theorem C8_contiguity_and_copies (al be ga : ℝ) (B N₁ N₂ : ℕ)
    (σ : GState B N₁ N₂) (m : ℕ) (out : Option ℕ) :
    sharpOp al be ga σ m false out =
        .error "Momentum array must be contiguous" ∧
      flatOp al be ga σ m false out =
        .error "Momentum array must be contiguous" ∧
      (sharpOp al be ga σ m true out).map
          (fun r => r.2.2.filter MEvent.isCopy) = .ok [] ∧
      (flatOp al be ga σ m true none).map
          (fun r => r.2.2.filter MEvent.isCopy) =
        .ok [MEvent.astypeCopy m (σ.nextId + 1)] ∧
      (∀ o : ℕ, (flatOp al be ga σ m true (some o)).map
          (fun r => r.2.2.filter MEvent.isCopy) =
        .ok [MEvent.astypeCopy m σ.nextId]) ∧
      (flatOp al be ga σ m true none).map
          (fun r => r.1.arrays (σ.nextId + 1)) = .ok (σ.arrays m) := by
  have hne : σ.nextId + 1 ≠ σ.nextId := by omega
  refine ⟨rfl, rfl, ?_, rfl, fun o => rfl, ?_⟩
  · cases out <;> rfl
  · simp [flatOp, Except.map, Function.update_noteq hne,
      Function.update_same]

/-- C8 counterexample.  A contiguous (accepted) input to `flat` is silently
copied: the trace of the call contains the `astype` copy of the input array
(handle 0 copied to fresh handle 2), refuting "neither operation ever makes
a silent copy of the input". -/
theorem C8_claim_counterexample :
    (flatOp 0 0 1 GStateEx 0 true none).map (fun r => r.2.2) =
        .ok [MEvent.emptyLike 1, MEvent.astypeCopy 0 2, MEvent.fftCall,
          MEvent.operatorCall, MEvent.ifftCall] ∧
      (flatOp 0 0 1 GStateEx 0 true none).map
          (fun r => r.2.2.filter MEvent.isCopy) =
        .ok [MEvent.astypeCopy 0 2] ∧
      (flatOp 0 0 1 GStateEx 0 true none).map (fun r => r.1.arrays 2) =
        .ok (GStateEx.arrays 0) := by
  refine ⟨rfl, rfl, ?_⟩
  have hne : (2 : ℕ) ≠ 1 := by omega
  simp [flatOp, GStateEx, Except.map, Function.update_noteq hne,
    Function.update_same]

/-- C9, amended statement.  For an accepted (contiguous) input handle `m`,
and a supplied `out` that is a different array from the input: the input
array's contents are unchanged by `sharp` and `flat`; the result is written
into `out` and that same handle is returned; with `out` omitted a freshly
allocated handle is returned holding the result; besides the output (and,
for `flat`, the fresh astype copy) only the scratch buffer `Fv` is
overwritten. -/
theorem C9_frame_conditions (al be ga : ℝ) (B N₁ N₂ : ℕ)
    (σ : GState B N₁ N₂) (m o : ℕ) (hm : m < σ.nextId) (ho : o < σ.nextId)
    (hom : o ≠ m) :
    ((sharpOp al be ga σ m true none).map (fun r => r.2.1) = .ok σ.nextId ∧
      (sharpOp al be ga σ m true none).map (fun r => r.1.arrays m) =
        .ok (σ.arrays m) ∧
      (sharpOp al be ga σ m true none).map (fun r => r.1.arrays σ.nextId) =
        .ok (sharp al be ga (σ.arrays m)) ∧
      (∀ a : ℕ, a ≠ σ.nextId →
        (sharpOp al be ga σ m true none).map (fun r => r.1.arrays a) =
          .ok (σ.arrays a)) ∧
      (sharpOp al be ga σ m true none).map (fun r => r.1.Fv) =
        .ok (inverse_operator_2d al be ga
          (fun b c k₁ k₂ => dftRaw (σ.arrays m) b c k₁ k₂ /
            ((Ntot N₁ N₂ : ℕ) : ℂ)))) ∧
    ((sharpOp al be ga σ m true (some o)).map (fun r => r.2.1) = .ok o ∧
      (sharpOp al be ga σ m true (some o)).map (fun r => r.1.arrays m) =
        .ok (σ.arrays m) ∧
      (sharpOp al be ga σ m true (some o)).map (fun r => r.1.arrays o) =
        .ok (sharp al be ga (σ.arrays m)) ∧
      (∀ a : ℕ, a ≠ o →
        (sharpOp al be ga σ m true (some o)).map (fun r => r.1.arrays a) =
          .ok (σ.arrays a))) ∧
    ((flatOp al be ga σ m true none).map (fun r => r.2.1) = .ok σ.nextId ∧
      (flatOp al be ga σ m true none).map (fun r => r.1.arrays m) =
        .ok (σ.arrays m) ∧
      (flatOp al be ga σ m true none).map (fun r => r.1.arrays σ.nextId) =
        .ok (flat al be ga (σ.arrays m)) ∧
      (∀ a : ℕ, a ≠ σ.nextId → a ≠ σ.nextId + 1 →
        (flatOp al be ga σ m true none).map (fun r => r.1.arrays a) =
          .ok (σ.arrays a))) ∧
    ((flatOp al be ga σ m true (some o)).map (fun r => r.2.1) = .ok o ∧
      (flatOp al be ga σ m true (some o)).map (fun r => r.1.arrays m) =
        .ok (σ.arrays m) ∧
      (flatOp al be ga σ m true (some o)).map (fun r => r.1.arrays o) =
        .ok (flat al be ga (σ.arrays m)) ∧
      (∀ a : ℕ, a ≠ o → a ≠ σ.nextId →
        (flatOp al be ga σ m true (some o)).map (fun r => r.1.arrays a) =
          .ok (σ.arrays a))) := by
  have hmn : m ≠ σ.nextId := by omega
  have hmn1 : m ≠ σ.nextId + 1 := by omega
  have hon : o ≠ σ.nextId := by omega
  refine ⟨⟨rfl, ?_, ?_, fun a ha => ?_, rfl⟩,
    ⟨rfl, ?_, ?_, fun a ha => ?_⟩,
    ⟨rfl, ?_, ?_, fun a ha ha1 => ?_⟩,
    ⟨rfl, ?_, ?_, fun a ha ha1 => ?_⟩⟩ <;>
    (simp [sharpOp, flatOp, sharp, flat, Except.map, Function.update_same,
      Function.update_noteq, hmn, hmn1, hon, hom, hom.symm, *]
     try rfl)

/-- C9 witness: with a supplied output array (handle 1) distinct from the
input (handle 0), `sharp` leaves the input array's contents unchanged. -/
theorem C9_witness :
    (sharpOp 0 0 2 GStateEx2 0 true (some 1)).map (fun r => r.1.arrays 0) =
      .ok (GStateEx2.arrays 0) :=
  (C9_frame_conditions 0 0 2 1 0 0 GStateEx2 0 1 (by decide) (by decide)
    (by decide)).2.1.2.1

/-- C9 counterexample.  The claim's "the input array is left unchanged by
the call" fails when the supplied `out` aliases the input: on a 1×1 grid
with `gamma = 2`, `sharp(m, out=m)` overwrites the constant-one input with
the constant one-half result. -/
theorem C9_claim_counterexample :
    (sharpOp 0 0 2 GStateEx 0 true (some 0)).map
        (fun r => r.1.arrays 0 0 0 0 0) = .ok (1 / 2 : ℂ) ∧
      GStateEx.arrays 0 0 0 0 0 = 1 := by
  refine ⟨?_, rfl⟩
  simp [sharpOp, GStateEx, Except.map, Function.update_same,
    inverse_operator_2d, dftRaw, idftRaw, dftAx1, dftAx2, Fin.sum_univ_two,
    Fin.sum_univ_one, fker_one, AmatInv, Amat, detA, Lop, svec, lutcos,
    lutsin, Ntot, Fin.ext_iff]

end Lagomorph
